import Mathlib

/-!
Shallow embedding of the `stitches` incremental pipeline runner
(`src/stitches/core.py`): the resource model, task fingerprinting,
pipeline expansion (`load`), the staleness planner (`analyse` with its
decision trees), and the executor (`execute`).

Modelling conventions:
* Python dictionaries are association lists with unique keys; `dictGet`,
  `dictSet` and `dictDel` mirror `d[k]`, `d[k] = v` and `del d[k]`
  (the latter is `Option`-valued, `none` standing for `KeyError`).
* File modification times (`float` in Python) are modelled as `Int`;
  the planner only compares them with `>`.
* The platform accessor (`Platform` in `core.py`) is a record of pure
  functions; `region_hash()` is recomputed per task in the source but a
  pure platform always yields the same value.  `file_mtime` is total
  here (the OS platform raises on a missing file; the repository's test
  platform is total).
* The md5 digest of `_object_checksum` applied to the `sort_keys` JSON
  serialization is modelled by the canonical (recursively key-sorted)
  value itself: a digest is assumed collision free, which is the stated
  contract of the fingerprint.
-/

namespace Stitches

/-- Resource kinds (`Resource.FILE` / `Resource.VECTOR` / `Resource.RASTER`). -/
inductive RType where
  | file
  | vector
  | raster
deriving DecidableEq, Repr

/-- A parsed resource (`Resource.__init__`).  A `file` resource carries a
path; a grass map carries a name and an optional gisdbase/location/mapset
qualification.  The original spec string is retained verbatim (`self._ref`). -/
inductive Resource where
  | file (ref : String) (path : String)
  | map (ref : String) (rtype : RType) (name : String)
      (gisdbase : Option String) (location : Option String)
      (mapset : Option String)
deriving DecidableEq, Repr

/-- `Resource.ref()`: the original string, the canonical identity. -/
def Resource.refStr : Resource → String
  | .file r _ => r
  | .map r _ _ _ _ _ => r

/-- `resource.type`. -/
def Resource.rtype : Resource → RType
  | .file _ _ => RType.file
  | .map _ t _ _ _ _ => t

/-- `resource.path` (only meaningful for file resources). -/
def Resource.path : Resource → String
  | .file _ p => p
  | .map _ _ _ _ _ _ => ""

/-- `resource.name` (only meaningful for grass maps). -/
def Resource.name : Resource → String
  | .file _ _ => ""
  | .map _ _ n _ _ _ => n

/-- Split a list at the first occurrence of `c`, like Python's
`s.split(c, 1)` when it yields two components; `none` when `c` does not
occur (Python then yields a single component). -/
def splitFirstAux (c : Char) : List Char → Option (List Char × List Char)
  | [] => none
  | x :: xs =>
    if x = c then some ([], xs)
    else match splitFirstAux c xs with
      | some (a, b) => some (x :: a, b)
      | none => none

/-- Python `s.split(c, 1)` restricted to the two-component case. -/
def splitFirst (s : String) (c : Char) : Option (String × String) :=
  (splitFirstAux c s.toList).map fun p => (String.mk p.1, String.mk p.2)

/-- Python `s.split(c)` with a one-character separator (`''.split(c)`
yields `['']`). -/
def splitAllAux (c : Char) : List Char → List (List Char)
  | [] => [[]]
  | x :: xs =>
    let r := splitAllAux c xs
    if x = c then [] :: r
    else match r with
      | h :: t => (x :: h) :: t
      | [] => [[x]]

/-- Python `s.split(c)` on strings. -/
def splitAll (s : String) (c : Char) : List String :=
  (splitAllAux c s.toList).map String.mk

/-- `Resource.__init__`: parse a spec string.  `(type_, rest) =
ref.split('/', 1)` raises when no `/` is present; an unknown kind raises
`Invalid resource type`.  For maps, `rest.split('@', 1)` yields at most
two components, so the source's `Malformed GRASS name` branch
(`len(components)` neither 1 nor 2) is unreachable; the `@`-qualification
is split on `/` and read right to left as mapset, location, gisdbase,
extra segments being ignored. -/
def Resource.parse (ref : String) : Except String Resource :=
  match splitFirst ref '/' with
  | none => .error "ValueError: not enough values to unpack"
  | some (type_, rest) =>
    if type_ = "file" then
      .ok (.file ref rest)
    else if type_ = "vector" ∨ type_ = "raster" then
      let t := if type_ = "vector" then RType.vector else RType.raster
      match splitFirst rest '@' with
      | none => .ok (.map ref t rest none none none)
      | some (nm, qual) =>
        let parts := (splitAll qual '/').reverse
        .ok (.map ref t nm (parts.get? 2) (parts.get? 1) (parts.get? 0))
    else
      .error ("Invalid resource type \x22" ++ type_ ++ "\x22")

example : Resource.parse "file/foobar/baz.tif" =
    .ok (.file "file/foobar/baz.tif" "foobar/baz.tif") := rfl

example : Resource.parse "vector/mypoint@mydb/myloc/maps" =
    .ok (.map "vector/mypoint@mydb/myloc/maps" .vector "mypoint"
      (some "mydb") (some "myloc") (some "maps")) := rfl

example : Resource.parse "vector/mypoint" =
    .ok (.map "vector/mypoint" .vector "mypoint" none none none) := rfl

example : Resource.parse "vector/mypoint@foo" =
    .ok (.map "vector/mypoint@foo" .vector "mypoint" none none (some "foo")) := rfl

/-- A TOML/JSON-like value, as produced by parsing a pipeline document
(parameter bags, which `json.dumps` can serialize).  Lists and tables
are encoded as first-order cons cells (`nilV`/`consV` for arrays,
`nilT`/`consT` for key/value tables) so that equality stays decidable. -/
inductive PVal where
  | int (n : Int)
  | str (s : String)
  | bool (b : Bool)
  | nilV
  | consV (hd tl : PVal)
  | nilT
  | consT (key : String) (val tl : PVal)
deriving DecidableEq, Repr

/-- Insert a key/value binding into a key-sorted table. -/
def insertT (k : String) (v : PVal) : PVal → PVal
  | .consT k2 v2 tl =>
    if k ≤ k2 then .consT k v (.consT k2 v2 tl)
    else .consT k2 v2 (insertT k v tl)
  | t => .consT k v t

/-- The canonical form of a value under `json.dumps(..., sort_keys=True)`:
every table's keys are recursively sorted, array order is preserved.
Two values serialize (and hence `_object_checksum` digest) identically
iff their canonical forms agree. -/
def PVal.canon : PVal → PVal
  | .int n => .int n
  | .str s => .str s
  | .bool b => .bool b
  | .nilV => .nilV
  | .consV h t => .consV h.canon t.canon
  | .nilT => .nilT
  | .consT k v tl => insertT k v.canon tl.canon

/-- A `[[tasks]]` entry carrying a `task` key, as parsed from a pipeline
document.  Fields other than `task` are optional: `options.get(name)`
distinguishes an absent key from a present one. -/
structure TaskOptions where
  task : String
  params : Option PVal
  inputs : Option (List String)
  outputs : Option (List String)
  removes : Option (List String)
  message : Option String
  always : Option Bool
deriving DecidableEq, Repr

/-- The object fed to `_object_checksum` in `load`:
`{name: options.get(name) for name in ['task','params','inputs','outputs','removes']}`.
The digest of its key-sorted serialization is modelled by the canonical
object itself (see the header); it serves as the History Store key. -/
structure TaskHashable where
  task : String
  params : Option PVal
  inputs : Option (List String)
  outputs : Option (List String)
  removes : Option (List String)
deriving DecidableEq, Repr

/-- The Fingerprint computed in `load` (lines 487–490 of `core.py`):
exactly the five contributing fields, with parameter tables
canonicalized; `message` and `always` do not occur. -/
def fingerprint (o : TaskOptions) : TaskHashable :=
  { task := o.task
    params := o.params.map PVal.canon
    inputs := o.inputs
    outputs := o.outputs
    removes := o.removes }

/-- `TaskStatus`. -/
inductive TaskStatus where
  | run
  | skip
  | fail
deriving DecidableEq, Repr

/-- `InputStatus`. -/
inductive InputStatus where
  | change
  | nochange
  | fail
  | unknown
deriving DecidableEq, Repr

/-- `OutputStatus` (only `EXISTS`; the decision tree otherwise yields
Python `None`, modelled as `Option.none`). -/
inductive OutputStatus where
  | exists
deriving DecidableEq, Repr

/-- `d.get(k)` on a Python dictionary (association list, first match). -/
def dictGet {κ α : Type} [DecidableEq κ] : List (κ × α) → κ → Option α
  | [], _ => none
  | (k, v) :: rest, key => if k = key then some v else dictGet rest key

/-- `d[k] = v`: overwrite in place, else append. -/
def dictSet {κ α : Type} [DecidableEq κ] : List (κ × α) → κ → α → List (κ × α)
  | [], key, v => [(key, v)]
  | (k, w) :: rest, key, v =>
    if k = key then (key, v) :: rest else (k, w) :: dictSet rest key v

/-- `del d[k]`: `none` models the `KeyError` raised when `k` is absent. -/
def dictDel {κ α : Type} [DecidableEq κ] : List (κ × α) → κ → Option (List (κ × α))
  | [], _ => none
  | (k, v) :: rest, key =>
    if k = key then some rest else (dictDel rest key).map ((k, v) :: ·)

/-- One History Store record: `{inputs: ref → mtime, region, message}`. -/
structure HistEntry where
  inputs : List (String × Int)
  region : String
  message : String
deriving DecidableEq, Repr

/-- The History Store: Fingerprint → record. -/
abbrev History : Type := List (TaskHashable × HistEntry)

/-- A classified or yet-unclassified task event (`TaskEvent`). -/
structure Task where
  task : String
  params : PVal
  inputs : List Resource
  outputs : List Resource
  removes : List Resource
  message : String
  always : Bool
  pipeline : Option String
  ref : Option String
  hash : TaskHashable
  status : Option TaskStatus
deriving DecidableEq, Repr

/-- The value held by `load`'s `location` variable and by the `location`
attribute of an emitted `LocationEvent`: initially `None` or a string,
but rebound to the previously emitted `LocationEvent` object after a
pipeline is entered (the source reuses one variable for both). -/
inductive LocSlot where
  | noneV
  | str (s : String)
  | ev (gisdbase : Option String) (location : LocSlot) (mapset : String)
deriving DecidableEq, Repr

/-- An event of the expanded stream. -/
inductive Event where
  | location (gisdbase : Option String) (location : LocSlot) (mapset : String)
  | task (t : Task)
deriving DecidableEq, Repr

/-- The platform accessor (`Platform`): file mtimes/existence, grass map
existence, current region fingerprint. -/
structure Platform where
  fileMtime : String → Int
  fileExists : String → Bool
  mapExists : RType → String → Bool
  regionHash : String

/-- `StatusContext`: the planner state during input resolution. -/
structure Planner where
  platform : Platform
  history : History
  created : List (String × Option String)
  statuses : List (Option String × TaskStatus)
  force : Bool
  skip : Option (List String)
  only : Option String

/-- `t.ref in p.skip` (a task whose `ref` is Python `None` is never a
member of a list of strings). -/
def refInSkip (ref : Option String) (sk : List String) : Bool :=
  match ref with
  | some r => sk.contains r
  | none => false

/-- `_OUTPUT_DECISION_TREE`: grass maps and files exist or not; Python
`None` for a missing resource. -/
def outputDecision (p : Planner) (r : Resource) : Option OutputStatus :=
  if r.rtype ≠ RType.file then
    if p.platform.mapExists r.rtype r.name then some .exists else none
  else if r.rtype = RType.file then
    if p.platform.fileExists r.path then some .exists else none
  else
    none

/-- `_INPUT_DECISION_TREE`, evaluated with `planner.task` set to the task
whose hash is `curHash`.  For a grass map: missing → FAIL; no visible
creator → UNKNOWN; creator's status ≠ SKIP → CHANGE else NOCHANGE (the
lookup `planner.statuses[parent]` cannot miss inside `analyse`; a miss is
treated as CHANGE here).  For a file: missing → FAIL; never recorded →
CHANGE; recorded and strictly newer → CHANGE else NOCHANGE. -/
def inputDecision (p : Planner) (curHash : TaskHashable) (r : Resource) :
    InputStatus :=
  if r.rtype ≠ RType.file then
    if p.platform.mapExists r.rtype r.name then
      match dictGet p.created r.refStr with
      | some parent =>
        if dictGet p.statuses parent = some TaskStatus.skip then .nochange
        else .change
      | none => .unknown
    else .fail
  else if r.rtype = RType.file then
    if p.platform.fileExists r.path then
      match (dictGet p.history curHash).bind (fun e => dictGet e.inputs r.refStr) with
      | some prev =>
        if p.platform.fileMtime r.path > prev then .change else .nochange
      | none => .change
    else .fail
  else
    .fail

/-- `_TASK_DECISION_TREE`: force → RUN; `only` set → RUN iff the refs
match else SKIP; `skip` set and member → SKIP; otherwise `always` → RUN;
else undecided (Python `None`). -/
def taskDecisionTree (p : Planner) (t : Task) : Option TaskStatus :=
  if p.force then some .run
  else match p.only with
    | some o => if t.ref = some o then some .run else some .skip
    | none =>
      match p.skip with
      | some sk =>
        if refInSkip t.ref sk then some .skip
        else if t.always then some .run else none
      | none => if t.always then some .run else none

/-- The input-aggregation tail of `_task_status`: any FAIL → FAIL, else
any UNKNOWN → RUN, else any CHANGE → RUN, else SKIP (the empty list
included). -/
def aggregateInputs (sts : List InputStatus) : TaskStatus :=
  if InputStatus.fail ∈ sts then .fail
  else if InputStatus.unknown ∈ sts then .run
  else if InputStatus.change ∈ sts then .run
  else .skip

/-- `_task_status`: the override tree first; then any missing output →
RUN; unseen fingerprint → RUN; changed region → RUN; then aggregate the
input classifications. -/
def taskStatus (p : Planner) (t : Task) : TaskStatus :=
  match taskDecisionTree p t with
  | some s => s
  | none =>
    if t.outputs.any (fun r => outputDecision p r ≠ some OutputStatus.exists) then
      .run
    else
      match dictGet p.history t.hash with
      | none => .run
      | some entry =>
        if entry.region ≠ p.platform.regionHash then .run
        else aggregateInputs (t.inputs.map (inputDecision p t.hash))

/-- The history-update loop body in `analyse` (lines 543–546): record the
current mtime of every file-type input over the previously recorded map;
grass inputs are not recorded. -/
def recordInputs (plat : Platform) (base : List (String × Int))
    (inputs : List Resource) : List (String × Int) :=
  inputs.foldl
    (fun acc r =>
      if r.rtype = RType.file then dictSet acc r.refStr (plat.fileMtime r.path)
      else acc)
    base

/-- The removes loop in `analyse` (lines 536–537):
`del planner.created[resource.ref()]` for each declared remove, in order;
`none` models the `KeyError` raised when a ref has no creator entry. -/
def removeAll (c : List (String × Option String)) :
    List Resource → Option (List (String × Option String))
  | [] => some c
  | r :: rs =>
    match dictDel c r.refStr with
    | some c' => removeAll c' rs
    | none => none

/-- `history.get(task.hash, {'inputs': {}})['inputs']`: the previously
recorded input-mtime map for the task's fingerprint, empty when the
fingerprint is unseen. -/
def histBase (p : Planner) (t : Task) : List (String × Int) :=
  match dictGet p.history t.hash with
  | some e => e.inputs
  | none => []

/-- One iteration of the `analyse` loop: classify the task, record its
status, advance the creator map (outputs then removes), and overwrite the
History Store entry for its fingerprint with the current region hash, the
task's message and its file-input mtimes.  Non-task events pass through
unchanged. -/
def analyseStep (p : Planner) (completed : List TaskHashable) (ev : Event) :
    Option (Planner × List TaskHashable × Event) :=
  match ev with
  | .location g l m => some (p, completed, .location g l m)
  | .task t =>
    let st := taskStatus p t
    let statuses := dictSet p.statuses t.ref st
    let completed' := t.hash :: completed
    let created := t.outputs.foldl (fun c r => dictSet c r.refStr t.ref) p.created
    match removeAll created t.removes with
    | none => none
    | some created' =>
      let entry : HistEntry :=
        { inputs := recordInputs p.platform (histBase p t) t.inputs
          region := p.platform.regionHash
          message := t.message }
      some ({ p with
                statuses := statuses
                created := created'
                history := dictSet p.history t.hash entry },
            completed', .task { t with status := some st })

/-- The `analyse` loop over the remaining event stream. -/
def analyseGo (p : Planner) (completed : List TaskHashable) :
    List Event → Option (List Event × Planner × List TaskHashable)
  | [] => some ([], p, completed)
  | ev :: rest =>
    match analyseStep p completed ev with
    | none => none
    | some (p', completed', ev') =>
      match analyseGo p' completed' rest with
      | none => none
      | some (out, pf, cf) => some (ev' :: out, pf, cf)

/-- `analyse`: classify every task of the stream against the platform and
History Store, then garbage-collect every history key whose fingerprint
was not encountered during the run.  `none` models an uncaught exception
(the `KeyError` of the removes loop). -/
def analyse (events : List Event) (platform : Platform) (history : History)
    (force : Bool) (skip : Option (List String)) (only : Option String) :
    Option (List Event × History) :=
  match analyseGo
      { platform := platform, history := history, created := [],
        statuses := [], force := force, skip := skip, only := only }
      [] events with
  | none => none
  | some (out, pf, completed) =>
    some (out, pf.history.filter (fun kv => decide (kv.1 ∈ completed)))

/-- The fingerprints of the task events of a stream. -/
def taskHashes : List Event → List TaskHashable
  | [] => []
  | .task t :: rest => t.hash :: taskHashes rest
  | .location _ _ _ :: rest => taskHashes rest

/-- The task events of a stream. -/
def taskEvents : List Event → List Task
  | [] => []
  | .task t :: rest => t :: taskEvents rest
  | .location _ _ _ :: rest => taskEvents rest

/-- Lifecycle events emitted by `execute` (`TaskStartEvent`,
`TaskSkipEvent`, `TaskCompleteEvent`). -/
inductive OutEvent where
  | start (ref : Option String) (description : String)
  | skipped (t : Task)
  | complete (t : Task)
deriving DecidableEq, Repr

/-- `execute`: walk the classified stream dropping non-task events; emit
`start` for every task; SKIP → emit `skipped`; FAIL → raise
(`Error(event)`, the third component, processing no further events);
RUN → invoke the task function (recorded in the second component) and
emit `complete`; an unset status falls through every branch.  The actual
callable resolution and output capture are external effects; an
invocation is modelled by membership in the invocation list. -/
def executeGo : List Event → List OutEvent × List Task × Option Task
  | [] => ([], [], none)
  | .location _ _ _ :: rest => executeGo rest
  | .task t :: rest =>
    match t.status with
    | some .skip =>
      let r := executeGo rest
      (.start t.ref t.message :: .skipped t :: r.1, r.2.1, r.2.2)
    | some .fail => ([.start t.ref t.message], [], some t)
    | some .run =>
      let r := executeGo rest
      (.start t.ref t.message :: .complete t :: r.1, t :: r.2.1, r.2.2)
    | none =>
      let r := executeGo rest
      (.start t.ref t.message :: r.1, r.2.1, r.2.2)

/-- `params` of a nested-pipeline entry (`{vars?, gisdbase?, location?,
mapset?}`); the variable bag only feeds template rendering, which is
abstracted into the environment below. -/
structure PipeParams where
  gisdbase : Option String
  location : Option String
  mapset : Option String
deriving DecidableEq, Repr

/-- One entry of a `tasks` list: a nested pipeline (`'pipeline' in
options`, checked first), a task (`'task' in options`), or neither (the
source silently emits nothing for such an entry). -/
inductive POptions where
  | pipeline (name : String) (params : PipeParams)
  | task (o : TaskOptions)
  | other
deriving DecidableEq, Repr

/-- A rendered and parsed pipeline document. -/
structure PConfig where
  gisdbase : Option String
  location : Option String
  mapset : Option String
  tasks : List POptions
deriving DecidableEq, Repr

/-- Reference-path assignment:
`str(i) if ref is None else '{}/{}'.format(ref, i)`. -/
def mkRef (parent : Option String) (i : Nat) : String :=
  match parent with
  | none => toString i
  | some r => r ++ "/" ++ toString i

/-- The task branch of `load`: compute the fingerprint over the five
contributing fields, parse every declared resource (a parse failure
propagates), and build the `TaskEvent` with its defaults
(`message = ''`, `params = {}`, `always = False`). -/
def mkTaskEvent (parent refv : Option String) (o : TaskOptions) : Option Task :=
  match (o.inputs.getD []).mapM (fun s => (Resource.parse s).toOption),
        (o.outputs.getD []).mapM (fun s => (Resource.parse s).toOption),
        (o.removes.getD []).mapM (fun s => (Resource.parse s).toOption) with
  | some ins, some outs, some rems =>
    some { task := o.task
           params := o.params.getD PVal.nilT
           inputs := ins
           outputs := outs
           removes := rems
           message := o.message.getD ""
           always := o.always.getD false
           pipeline := parent
           ref := refv
           hash := fingerprint o
           status := none }
  | _, _, _ => none

/-- An item of `load`'s explicit stack: a config entry to expand or a
previously emitted location event to re-emit. -/
inductive StackItem where
  | config (parent : Option String) (ref : Option String) (options : POptions)
  | location (gisdbase : Option String) (loc : LocSlot) (mapset : String)
deriving DecidableEq, Repr

/-- The `load` loop.  `env` abstracts `jinja_env.get_template(name)` +
`render` + `toml.loads` into a map from template name to parsed config
(`none` = template not found); `fuel` bounds the number of iterations
(the source loops forever on cyclic pipeline includes).  The `locSlot`
argument is the source's `location` variable: consulted as the inherited
location default and rebound to each emitted `LocationEvent`. -/
def loadGo (env : String → Option PConfig) :
    Nat → List StackItem → List (Option String × LocSlot × String) →
    Option String → LocSlot → String → Option (List Event)
  | _, [], _, _, _, _ => some []
  | 0, _ :: _, _, _, _, _ => none
  | fuel + 1, item :: stack, locations, gisdbase, locSlot, mapset =>
    match item with
    | .location g l m =>
      (loadGo env fuel stack locations gisdbase locSlot mapset).map
        (Event.location g l m :: ·)
    | .config parent ref options =>
      match options with
      | .other => loadGo env fuel stack locations gisdbase locSlot mapset
      | .task o =>
        match mkTaskEvent parent ref o with
        | none => none
        | some t =>
          (loadGo env fuel stack locations gisdbase locSlot mapset).map
            (Event.task t :: ·)
      | .pipeline name pparams =>
        match env name with
        | none => none
        | some config =>
          let gisdbase_ := pparams.gisdbase <|> gisdbase
          let location_ : LocSlot :=
            match pparams.location with
            | some s => .str s
            | none => locSlot
          let mapset_ := pparams.mapset.getD mapset
          let g := config.gisdbase <|> gisdbase_
          let l : LocSlot :=
            match config.location with
            | some s => .str s
            | none => location_
          let m := config.mapset.getD mapset_
          let popped :=
            match locations with
            | [] => (stack, ([] : List (Option String × LocSlot × String)))
            | lv :: lrest => (StackItem.location lv.1 lv.2.1 lv.2.2 :: stack, lrest)
          let locations' := (g, l, m) :: popped.2
          let children := config.tasks.enum.map
            (fun pr => StackItem.config (some name) (some (mkRef ref pr.1)) pr.2)
          (loadGo env fuel (children ++ popped.1) locations' gisdbase
              (LocSlot.ev g l m) mapset).map
            (Event.location g l m :: ·)

/-- `load`: expand a root options entry into the flat event stream. -/
def load (env : String → Option PConfig) (fuel : Nat) (options : POptions)
    (gisdbase : Option String) (location : Option String) (mapset : String) :
    Option (List Event) :=
  loadGo env fuel [StackItem.config none none options] [] gisdbase
    (match location with | some s => .str s | none => .noneV) mapset

/-! ### Association-list lemmas -/

theorem dictGet_set_self {κ α : Type} [DecidableEq κ] (d : List (κ × α)) (k : κ)
    (v : α) : dictGet (dictSet d k v) k = some v := by
  induction d with
  | nil => simp [dictSet, dictGet]
  | cons kv rest ih =>
    by_cases h : kv.1 = k
    · simp [dictSet, dictGet, h]
    · cases kv with
      | mk k1 v1 =>
        simp only at h
        simp [dictSet, dictGet, h, ih]

theorem dictGet_set_ne {κ α : Type} [DecidableEq κ] (d : List (κ × α)) (k k' : κ)
    (v : α) (h : k' ≠ k) : dictGet (dictSet d k v) k' = dictGet d k' := by
  have h' : ¬(k = k') := fun he => h he.symm
  induction d with
  | nil => simp [dictSet, dictGet, h']
  | cons kv rest ih =>
    cases kv with
    | mk k1 v1 =>
      by_cases h1 : k1 = k
      · subst h1
        simp [dictSet, dictGet, h']
      · by_cases h2 : k1 = k'
        · subst h2
          simp [dictSet, dictGet, h1]
        · simp [dictSet, dictGet, h1, h2, ih]

theorem dictGet_set_isSome {κ α : Type} [DecidableEq κ] (d : List (κ × α))
    (k k' : κ) (v : α) (h : (dictGet d k').isSome) :
    (dictGet (dictSet d k v) k').isSome := by
  by_cases hk : k' = k
  · subst hk
    simp [dictGet_set_self]
  · rwa [dictGet_set_ne d k k' v hk]

theorem mem_dictSet {κ α : Type} [DecidableEq κ] (d : List (κ × α)) (k : κ)
    (v : α) (kv : κ × α) (h : kv ∈ dictSet d k v) : kv = (k, v) ∨ kv ∈ d := by
  induction d with
  | nil =>
    simp [dictSet] at h
    exact Or.inl h
  | cons p rest ih =>
    cases p with
    | mk k1 v1 =>
      by_cases h1 : k1 = k
      · simp [dictSet, h1] at h
        rcases h with h | h
        · exact Or.inl h
        · exact Or.inr (List.mem_cons_of_mem _ h)
      · simp [dictSet, h1] at h
        rcases h with h | h
        · exact Or.inr (by simp [h])
        · rcases ih h with h' | h'
          · exact Or.inl h'
          · exact Or.inr (List.mem_cons_of_mem _ h')

theorem mem_dictDel {κ α : Type} [DecidableEq κ] (d d' : List (κ × α)) (k : κ)
    (h : dictDel d k = some d') (kv : κ × α) (hm : kv ∈ d') : kv ∈ d := by
  induction d generalizing d' with
  | nil => simp [dictDel] at h
  | cons p rest ih =>
    cases p with
    | mk k1 v1 =>
      by_cases h1 : k1 = k
      · simp only [dictDel, h1, if_pos, Option.some.injEq] at h
        subst h
        exact List.mem_cons_of_mem _ hm
      · cases hdel : dictDel rest k with
        | none => simp [dictDel, h1, hdel] at h
        | some c' =>
          simp [dictDel, h1, hdel] at h
          subst h
          rcases List.mem_cons.mp hm with hm' | hm'
          · exact List.mem_cons.mpr (Or.inl hm')
          · exact List.mem_cons_of_mem _ (ih c' hdel hm')

theorem dictGet_filter {κ α : Type} [DecidableEq κ] (d : List (κ × α))
    (pkeep : κ → Bool) (k : κ) :
    dictGet (d.filter (fun kv => pkeep kv.1)) k =
      if pkeep k then dictGet d k else none := by
  induction d with
  | nil => simp [dictGet]
  | cons p rest ih =>
    cases p with
    | mk k1 v1 =>
      by_cases h1 : k1 = k
      · subst h1
        by_cases hp : pkeep k1
        · simp [List.filter_cons, hp, dictGet]
        · simp only [List.filter_cons] at *
          simp [hp, dictGet, ih]
      · by_cases hp : pkeep k1
        · simp [List.filter_cons, hp, dictGet, h1, ih]
        · simp [List.filter_cons, hp, dictGet, h1, ih]

theorem dictGet_none_of_key_not_mem {κ α : Type} [DecidableEq κ]
    (d : List (κ × α)) (k : κ) (h : k ∉ d.map Prod.fst) : dictGet d k = none := by
  induction d with
  | nil => simp [dictGet]
  | cons p rest ih =>
    cases p with
    | mk k1 v1 =>
      simp only [List.map_cons, List.mem_cons] at h
      push_neg at h
      have h1 : ¬(k1 = k) := fun he => h.1 he.symm
      simp [dictGet, h1, ih h.2]

theorem dictDel_of_get_none {κ α : Type} [DecidableEq κ] (d : List (κ × α))
    (k : κ) (h : dictGet d k = none) : dictDel d k = none := by
  induction d with
  | nil => simp [dictDel]
  | cons p rest ih =>
    cases p with
    | mk k1 v1 =>
      by_cases h1 : k1 = k
      · simp [dictGet, h1] at h
      · simp [dictGet, h1] at h
        simp [dictDel, h1, ih h]

theorem dictDel_of_get_some {κ α : Type} [DecidableEq κ] (d : List (κ × α))
    (k : κ) (v : α) (h : dictGet d k = some v) :
    ∃ d', dictDel d k = some d' ∧
      ((d.map Prod.fst).Nodup → dictGet d' k = none) := by
  induction d with
  | nil => simp [dictGet] at h
  | cons p rest ih =>
    cases p with
    | mk k1 v1 =>
      by_cases h1 : k1 = k
      · subst h1
        refine ⟨rest, by simp [dictDel], ?_⟩
        intro hnd
        simp only [List.map_cons, List.nodup_cons] at hnd
        exact dictGet_none_of_key_not_mem rest k1 hnd.1
      · simp [dictGet, h1] at h
        rcases ih h with ⟨d', hd', hnd⟩
        refine ⟨(k1, v1) :: d', by simp [dictDel, h1, hd'], ?_⟩
        intro hnodup
        simp only [List.map_cons, List.nodup_cons] at hnodup
        simp [dictGet, h1, hnd hnodup.2]

/-! ### Fixtures for concrete evaluations -/

/-- A platform on which every file and map exists, all mtimes are `0` and
the region fingerprint is `"r0"`. -/
def cexPlatform : Platform :=
  { fileMtime := fun _ => 0
    fileExists := fun _ => true
    mapExists := fun _ _ => true
    regionHash := "r0" }

/-- A fingerprint value distinguished by the task-kind name alone. -/
def fpOf (nm : String) : TaskHashable :=
  { task := nm, params := none, inputs := none, outputs := none, removes := none }

/-- A task event with the given ref, resources and `always` flag. -/
def mkFixTask (nm : String) (refv : Option String) (ins outs rems : List Resource)
    (alw : Bool) : Task :=
  { task := nm, params := PVal.nilT, inputs := ins, outputs := outs,
    removes := rems, message := "", always := alw, pipeline := none,
    ref := refv, hash := fpOf nm, status := none }

/-- A planner state with everything empty and no overrides beyond `skip`. -/
def mkFixPlanner (h : History) (sk : Option (List String)) : Planner :=
  { platform := cexPlatform, history := h, created := [], statuses := [],
    force := false, skip := sk, only := none }

/-! ### C10 -/

/-- C10: a locator with more than two `@`-delimited components is NOT a
construction-time error: `Resource.__init__` splits with `split('@', 1)`,
so `vector/name@a@b` constructs successfully with mapset `a@b` and the
`Malformed GRASS name` branch is dead code; only an unknown kind prefix
raises. -/
theorem c10_malformed_locator_accepted :
    Resource.parse "vector/name@a@b" =
      Except.ok (Resource.map "vector/name@a@b" RType.vector "name"
        none none (some "a@b"))
    ∧ Resource.parse "blah/name" =
      Except.error "Invalid resource type \x22blah\x22" :=
  ⟨rfl, rfl⟩

/-! ### C3 -/

/-- A task marked `always` whose reference path is in the skip list. -/
def c3Task : Task := mkFixTask "foo" (some "0") [] [] [] true

/-- A planner with `skip = ['0']`, `force` unset and `only` unset. -/
def c3Planner : Planner := mkFixPlanner [] (some ["0"])

/-- C3 counterexample: with force unset and only unset, an `always` task
whose reference path is in the skip set is assigned SKIP, not RUN —
`_TASK_DECISION_TREE` tests skip-membership before `always`. -/
theorem c3_counterexample :
    c3Task.always = true ∧ refInSkip c3Task.ref ["0"] = true ∧
    c3Planner.force = false ∧ c3Planner.only = none ∧
    c3Planner.skip = some ["0"] ∧
    taskStatus c3Planner c3Task = TaskStatus.skip ∧
    TaskStatus.skip ≠ TaskStatus.run := by
  refine ⟨rfl, rfl, rfl, rfl, rfl, rfl, by decide⟩

/-- C3 amended: with force unset, only unset and a skip set present, a
skip-listed task is assigned SKIP regardless of `always`; a task not in
the skip set with `always` set is assigned RUN. -/
theorem c3_amended (p : Planner) (t : Task) (sk : List String)
    (hf : p.force = false) (ho : p.only = none) (hs : p.skip = some sk) :
    (refInSkip t.ref sk = true → taskStatus p t = TaskStatus.skip) ∧
    (refInSkip t.ref sk = false → t.always = true →
      taskStatus p t = TaskStatus.run) := by
  constructor
  · intro hm
    simp [taskStatus, taskDecisionTree, hf, ho, hs, hm]
  · intro hm ha
    simp [taskStatus, taskDecisionTree, hf, ho, hs, hm, ha]

/-- C3 amended, witnessed at the counterexample input. -/
theorem c3_amended_witness : taskStatus c3Planner c3Task = TaskStatus.skip :=
  (c3_amended c3Planner c3Task ["0"] rfl rfl rfl).1 rfl

/-! ### C7 -/

/-- C7: two task definitions have equal Fingerprints exactly when they
agree on the five contributing fields {task, params, inputs, outputs,
removes} (params compared as canonical, key-order-insensitive JSON
objects); `message` and `always` never contribute.  Moreover the hash
`load` attaches to a task event is exactly this fingerprint. -/
theorem c7_fingerprint_purity :
    (∀ o1 o2 : TaskOptions,
      fingerprint o1 = fingerprint o2 ↔
        (o1.task = o2.task ∧
         o1.params.map PVal.canon = o2.params.map PVal.canon ∧
         o1.inputs = o2.inputs ∧ o1.outputs = o2.outputs ∧
         o1.removes = o2.removes)) ∧
    (∀ (parent refv : Option String) (o : TaskOptions) (t : Task),
      mkTaskEvent parent refv o = some t → t.hash = fingerprint o) := by
  constructor
  · intro o1 o2
    unfold fingerprint
    constructor
    · intro h
      simp only [TaskHashable.mk.injEq] at h
      exact h
    · rintro ⟨h1, h2, h3, h4, h5⟩
      simp [h1, h2, h3, h4, h5]
  · intro parent refv o t h
    unfold mkTaskEvent at h
    split at h
    · simp only [Option.some.injEq] at h
      subst h
      rfl
    · exact Option.noConfusion h

/-- Options that differ only in `message` and `always`. -/
def c7OptsA : TaskOptions :=
  { task := "foo", params := none, inputs := some ["file/a"], outputs := none,
    removes := none, message := some "note", always := some true }

/-- The same contributing fields as `c7OptsA`, different non-contributing
fields. -/
def c7OptsB : TaskOptions :=
  { task := "foo", params := none, inputs := some ["file/a"], outputs := none,
    removes := none, message := none, always := none }

/-- C7 witnessed: the fingerprints of `c7OptsA`/`c7OptsB` coincide, and a
loaded event's hash is the fingerprint. -/
theorem c7_fingerprint_purity_witness :
    fingerprint c7OptsA = fingerprint c7OptsB ∧
    ∀ t, mkTaskEvent none none c7OptsA = some t → t.hash = fingerprint c7OptsA :=
  ⟨(c7_fingerprint_purity.1 c7OptsA c7OptsB).mpr ⟨rfl, rfl, rfl, rfl, rfl⟩,
   fun t h => c7_fingerprint_purity.2 none none c7OptsA t h⟩

/-! ### C5 -/

/-- The grass map `vector/x`. -/
def vecX : Resource := Resource.map "vector/x" RType.vector "x" none none none

/-- A task whose `removes` names a resource no earlier task created. -/
def c5Task : Task := mkFixTask "rem" (some "0") [] [] [vecX] false

/-- C5 counterexample: a classified task removing a resource with no
creator-map entry does not leave the map unchanged — the `del` raises
`KeyError` and `analyse` produces no result at all. -/
theorem c5_counterexample :
    c5Task.removes = [vecX] ∧
    analyse [Event.task c5Task] cexPlatform [] false none none = none :=
  ⟨rfl, rfl⟩

/-- C5 amended: for each resource in `removes`, taken in order, the
creator-map entry is deleted when one is present (totally, leaving other
keys intact under the creator map's unique-key invariant), but when no
entry exists the update is a `KeyError`: `removeAll` — and with it the
whole `analyse` step for the task — yields no result rather than leaving
the creator map unchanged. -/
theorem c5_amended :
    (∀ (c : List (String × Option String)) (r : Resource) (rs : List Resource),
      dictGet c r.refStr = none → removeAll c (r :: rs) = none) ∧
    (∀ (c : List (String × Option String)) (r : Resource) (rs : List Resource)
        (v : Option String),
      dictGet c r.refStr = some v →
      ∃ c', dictDel c r.refStr = some c' ∧
        removeAll c (r :: rs) = removeAll c' rs ∧
        ((c.map Prod.fst).Nodup → dictGet c' r.refStr = none)) ∧
    (∀ (p : Planner) (comp : List TaskHashable) (t : Task),
      analyseStep p comp (Event.task t) = none ↔
        removeAll (t.outputs.foldl (fun c r => dictSet c r.refStr t.ref) p.created)
          t.removes = none) := by
  refine ⟨?_, ?_, ?_⟩
  · intro c r rs h
    simp [removeAll, dictDel_of_get_none c r.refStr h]
  · intro c r rs v h
    rcases dictDel_of_get_some c r.refStr v h with ⟨c', hdel, hnd⟩
    exact ⟨c', hdel, by simp [removeAll, hdel], hnd⟩
  · intro p comp t
    cases hra : removeAll
        (t.outputs.foldl (fun c r => dictSet c r.refStr t.ref) p.created)
        t.removes with
    | none => simp [analyseStep, hra]
    | some c' => simp [analyseStep, hra]

/-- C5 amended, witnessed on concrete creator maps. -/
theorem c5_amended_witness :
    removeAll [] [vecX] = none ∧
    (∃ c', dictDel [("vector/x", (some "0" : Option String))] vecX.refStr = some c' ∧
      removeAll [("vector/x", some "0")] [vecX] = removeAll c' [] ∧
      (([("vector/x", (some "0" : Option String))].map Prod.fst).Nodup →
        dictGet c' vecX.refStr = none)) ∧
    analyseStep (mkFixPlanner [] none) [] (Event.task c5Task) = none :=
  ⟨c5_amended.1 [] vecX [] rfl,
   c5_amended.2.1 [("vector/x", some "0")] vecX [] (some "0") rfl,
   (c5_amended.2.2 (mkFixPlanner [] none) [] c5Task).mpr rfl⟩

/-! ### C4 -/

/-- A skip-listed task whose fingerprint has no History Store entry. -/
def c4Task : Task := mkFixTask "c4" (some "0") [] [] [] false

/-- The planner state for the C4 counterexample: empty history,
`skip = ['0']`. -/
def c4Planner : Planner := mkFixPlanner [] (some ["0"])

/-- The history record `analyse` writes for `c4Task`. -/
def c4Entry : HistEntry := { inputs := [], region := "r0", message := "" }

/-- C4 counterexample: a task classified SKIP (via the skip list) whose
fingerprint had no History Store entry gains one after `analyse`
processes it — the entry is not left exactly as it was. -/
theorem c4_counterexample :
    dictGet ([] : History) c4Task.hash = none ∧
    analyse [Event.task c4Task] cexPlatform [] false (some ["0"]) none =
      some ([Event.task { c4Task with status := some TaskStatus.skip }],
            [(c4Task.hash, c4Entry)]) :=
  ⟨rfl, rfl⟩

/-- C4 amended: `analyse` performs the history update for every task it
classifies, SKIP included: after a task's step, the History Store entry
for its fingerprint is exactly the current region hash, the task's
message, and the current mtimes of its file inputs recorded over the
previously stored ones.  (`execute` itself never touches the History
Store; the update lives in `analyse`.) -/
theorem c4_amended (p : Planner) (comp : List TaskHashable) (t : Task)
    (p' : Planner) (comp' : List TaskHashable) (ev' : Event)
    (h : analyseStep p comp (Event.task t) = some (p', comp', ev')) :
    ev' = Event.task { t with status := some (taskStatus p t) } ∧
    dictGet p'.history t.hash =
      some { inputs := recordInputs p.platform (histBase p t) t.inputs
             region := p.platform.regionHash
             message := t.message } := by
  simp only [analyseStep] at h
  split at h
  · exact Option.noConfusion h
  · simp only [Option.some.injEq, Prod.mk.injEq] at h
    obtain ⟨hp, _, hev⟩ := h
    refine ⟨hev.symm, ?_⟩
    rw [← hp]
    exact dictGet_set_self p.history t.hash _

/-- C4 amended, witnessed at the counterexample input: the SKIP-classified
`c4Task` ends up with a freshly written history entry. -/
theorem c4_amended_witness :
    dictGet ({ c4Planner with
                statuses := [(some "0", TaskStatus.skip)]
                created := []
                history := [(c4Task.hash, c4Entry)] } : Planner).history
        c4Task.hash =
      some { inputs := recordInputs c4Planner.platform (histBase c4Planner c4Task)
                        c4Task.inputs
             region := c4Planner.platform.regionHash
             message := c4Task.message } :=
  (c4_amended c4Planner [] c4Task _ [c4Task.hash]
    (Event.task { c4Task with status := some TaskStatus.skip }) rfl).2

/-! ### C9 -/

/-- The file resource `file/in.txt`. -/
def fileIn : Resource := Resource.file "file/in.txt" "in.txt"

/-- The file resource `file/out.txt`. -/
def fileOut : Resource := Resource.file "file/out.txt" "out.txt"

/-- A platform on which `in.txt` and `out.txt` are missing. -/
def c9Platform : Platform :=
  { fileMtime := fun _ => 0
    fileExists := fun p => decide (p ≠ "in.txt" ∧ p ≠ "out.txt")
    mapExists := fun _ _ => true
    regionHash := "r0" }

/-- A task whose declared file input and file output are both missing. -/
def c9Task : Task := mkFixTask "c9" (some "0") [fileIn] [fileOut] [] false

/-- A planner over `c9Platform` with no overrides and empty history. -/
def c9Planner : Planner :=
  { platform := c9Platform, history := [], created := [], statuses := [],
    force := false, skip := none, only := none }

/-- C9 counterexample: a task with a missing file input is classified RUN,
not FAIL, when one of its outputs is also missing — the output check
precedes the input check in `_task_status`. -/
theorem c9_counterexample :
    c9Planner.platform.fileExists fileIn.path = false ∧
    fileIn ∈ c9Task.inputs ∧ fileIn.rtype = RType.file ∧
    c9Planner.force = false ∧ c9Planner.only = none ∧ c9Planner.skip = none ∧
    c9Task.always = false ∧
    taskStatus c9Planner c9Task = TaskStatus.run := by
  refine ⟨rfl, by simp [c9Task, mkFixTask], rfl, rfl, rfl, rfl, rfl, rfl⟩

/-- C9 amended: (i) a task with no override applying, `always` unset, all
outputs existing and an up-to-date history entry (matching region) is
classified FAIL whenever one of its declared file inputs does not exist;
(ii) `execute` stops at the first FAIL-classified task: it emits only the
events of the prefix plus that task's start event, invokes only the
prefix's RUN task functions, and raises carrying the failing task, so no
subsequent task is started. -/
theorem c9_amended :
    (∀ (p : Planner) (t : Task) (r : Resource),
      p.force = false → p.only = none →
      (∀ sk, p.skip = some sk → refInSkip t.ref sk = false) →
      t.always = false →
      (∀ ro ∈ t.outputs, outputDecision p ro = some OutputStatus.exists) →
      (∃ e, dictGet p.history t.hash = some e ∧
        e.region = p.platform.regionHash) →
      r ∈ t.inputs → r.rtype = RType.file →
      p.platform.fileExists r.path = false →
      taskStatus p t = TaskStatus.fail) ∧
    (∀ (pre : List Event) (t : Task) (post : List Event),
      (∀ t' ∈ taskEvents pre, t'.status ≠ some TaskStatus.fail) →
      t.status = some TaskStatus.fail →
      executeGo (pre ++ Event.task t :: post) =
        ((executeGo pre).1 ++ [OutEvent.start t.ref t.message],
         (executeGo pre).2.1, some t)) := by
  constructor
  · intro p t r hf ho hs ha houts hhist hmem hrt hex
    have htree : taskDecisionTree p t = none := by
      cases hsk : p.skip with
      | none => simp [taskDecisionTree, hf, ho, hsk, ha]
      | some sk => simp [taskDecisionTree, hf, ho, hsk, ha, hs sk hsk]
    have hany : t.outputs.any
        (fun ro => decide (outputDecision p ro ≠ some OutputStatus.exists)) = false := by
      simp only [List.any_eq_false, decide_eq_true_eq]
      intro ro hro
      simp [houts ro hro]
    obtain ⟨e, he, hreg⟩ := hhist
    have hfailmem : InputStatus.fail ∈ t.inputs.map (inputDecision p t.hash) := by
      refine List.mem_map.mpr ⟨r, hmem, ?_⟩
      simp [inputDecision, hrt, hex]
    unfold taskStatus
    rw [htree]
    simp only [hany, Bool.false_eq_true, if_false, he, hreg, ne_eq,
      not_true_eq_false]
    simp [aggregateInputs, hfailmem]
  · intro pre t post
    induction pre with
    | nil =>
      intro _ hfail
      simp [executeGo, hfail]
    | cons ev rest ih =>
      intro hnofail hfail
      cases ev with
      | location g l m =>
        have := ih (fun t' ht' => hnofail t' (by simpa [taskEvents] using ht')) hfail
        simpa [executeGo] using this
      | task t' =>
        have hne : t'.status ≠ some TaskStatus.fail :=
          hnofail t' (by simp [taskEvents])
        have hih := ih (fun t'' ht'' =>
          hnofail t'' (by simpa [taskEvents] using List.mem_cons_of_mem t' ht'')) hfail
        cases hst : t'.status with
        | none => simp [executeGo, hst, hih]
        | some s =>
          cases s with
          | run => simp [executeGo, hst, hih]
          | skip => simp [executeGo, hst, hih]
          | fail => exact absurd hst hne

/-- A FAIL-classified task for the C9 witness. -/
def c9FailTask : Task :=
  { mkFixTask "c9f" (some "0") [fileIn] [] [] false with
    status := some TaskStatus.fail }

/-- A planner over `c9Platform` whose history knows `c9f` at the current
region. -/
def c9bPlanner : Planner :=
  { platform := c9Platform
    history := [(fpOf "c9f", { inputs := [], region := "r0", message := "" })]
    created := [], statuses := [], force := false, skip := none, only := none }

/-- C9 amended, witnessed: the missing-input task classifies FAIL, and
`execute` on a stream holding only that FAIL task raises at once. -/
theorem c9_amended_witness :
    taskStatus c9bPlanner { c9FailTask with status := none } = TaskStatus.fail ∧
    executeGo ([] ++ Event.task c9FailTask :: []) =
      ((executeGo []).1 ++ [OutEvent.start c9FailTask.ref c9FailTask.message],
       (executeGo []).2.1, some c9FailTask) :=
  ⟨c9_amended.1 c9bPlanner { c9FailTask with status := none } fileIn
      rfl rfl (fun _ h => Option.noConfusion h) rfl
      (by intro ro hro; simp [c9FailTask, mkFixTask] at hro)
      ⟨{ inputs := [], region := "r0", message := "" }, rfl, rfl⟩
      (by simp [c9FailTask, mkFixTask]) rfl rfl,
   c9_amended.2 [] c9FailTask []
      (by intro t' ht'; simp [taskEvents] at ht') rfl⟩

/-! ### C6 -/

/-- Decomposition of a successful task step of `analyse`: how each
component of the planner state advances. -/
theorem analyseStep_task_parts (p : Planner) (c : List TaskHashable) (t : Task)
    (p' : Planner) (c' : List TaskHashable) (ev' : Event)
    (h : analyseStep p c (Event.task t) = some (p', c', ev')) :
    c' = t.hash :: c ∧
    p'.platform = p.platform ∧ p'.force = p.force ∧ p'.skip = p.skip ∧
    p'.only = p.only ∧
    p'.statuses = dictSet p.statuses t.ref (taskStatus p t) ∧
    p'.history = dictSet p.history t.hash
      { inputs := recordInputs p.platform (histBase p t) t.inputs
        region := p.platform.regionHash
        message := t.message } ∧
    ev' = Event.task { t with status := some (taskStatus p t) } ∧
    removeAll (t.outputs.foldl (fun cc r => dictSet cc r.refStr t.ref) p.created)
      t.removes = some p'.created := by
  simp only [analyseStep] at h
  split at h
  · exact Option.noConfusion h
  · next created' heq =>
    simp only [Option.some.injEq, Prod.mk.injEq] at h
    obtain ⟨hp, hc, hev⟩ := h
    subst hc
    refine ⟨rfl, ?_, ?_, ?_, ?_, ?_, ?_, hev.symm, ?_⟩ <;> rw [← hp]
    exact heq

/-- Every fingerprint in the final completed set was either a task hash of
the stream or already present initially. -/
theorem analyseGo_hashes (evs : List Event) (p : Planner) (c : List TaskHashable)
    (out : List Event) (pf : Planner) (cf : List TaskHashable)
    (h : analyseGo p c evs = some (out, pf, cf)) :
    ∀ k ∈ cf, k ∈ taskHashes evs ∨ k ∈ c := by
  induction evs generalizing p c out pf cf with
  | nil =>
    simp only [analyseGo, Option.some.injEq, Prod.mk.injEq] at h
    obtain ⟨-, -, hcf⟩ := h
    subst hcf
    exact fun k hk => Or.inr hk
  | cons ev rest ih =>
    simp only [analyseGo] at h
    cases hstep : analyseStep p c ev with
    | none => rw [hstep] at h; exact Option.noConfusion h
    | some tr =>
      obtain ⟨p', c', ev'⟩ := tr
      simp only [hstep] at h
      cases hgo : analyseGo p' c' rest with
      | none =>
        simp only [hgo] at h
        exact Option.noConfusion h
      | some r =>
        obtain ⟨out', pf', cf'⟩ := r
        simp only [hgo, Option.some.injEq, Prod.mk.injEq] at h
        obtain ⟨-, hpf, hcf⟩ := h
        subst hpf
        subst hcf
        intro k hk
        cases ev with
        | location g l m =>
          have hps : p = p' ∧ c = c' := by
            simp only [analyseStep, Option.some.injEq, Prod.mk.injEq] at hstep
            exact ⟨hstep.1, hstep.2.1⟩
          obtain ⟨hp, hc⟩ := hps
          subst hp
          subst hc
          simpa [taskHashes] using ih p c out' pf' cf' hgo k hk
        | task t =>
          have hc' := (analyseStep_task_parts p c t p' c' ev' hstep).1
          subst hc'
          rcases ih p' (t.hash :: c) out' pf' cf' hgo k hk with h' | h'
          · exact Or.inl (by simp [taskHashes, h'])
          · rcases List.mem_cons.mp h' with h'' | h''
            · exact Or.inl (by simp [taskHashes, h''])
            · exact Or.inr h''

/-- C6: after `analyse` consumes the whole stream, every surviving History
Store entry's fingerprint is the fingerprint of some task encountered in
the stream — entries for fingerprints not reached have been deleted. -/
theorem c6_garbage_collection (evs : List Event) (plat : Platform) (h0 : History)
    (force : Bool) (sk : Option (List String)) (only : Option String)
    (out : List Event) (h1 : History)
    (h : analyse evs plat h0 force sk only = some (out, h1)) :
    ∀ kv ∈ h1, kv.1 ∈ taskHashes evs := by
  unfold analyse at h
  cases hgo : analyseGo
      { platform := plat, history := h0, created := [], statuses := [],
        force := force, skip := sk, only := only } [] evs with
  | none => rw [hgo] at h; exact Option.noConfusion h
  | some r =>
    obtain ⟨out', pf, cf⟩ := r
    rw [hgo] at h
    simp only [Option.some.injEq, Prod.mk.injEq] at h
    obtain ⟨-, hh1⟩ := h
    subst hh1
    intro kv hkv
    have hk : kv.1 ∈ cf := by
      have := (List.mem_filter.mp hkv).2
      exact of_decide_eq_true this
    rcases analyseGo_hashes evs _ [] out' pf cf hgo kv.1 hk with h' | h'
    · exact h'
    · simp at h'

/-- A fresh task for the C6 witness. -/
def c6Task : Task := mkFixTask "c6" (some "0") [] [] [] false

/-- C6 witnessed: running `analyse` over a stream holding only `c6Task`
against a history holding a stale entry leaves a history whose only key
is `c6Task`'s fingerprint. -/
theorem c6_garbage_collection_witness :
    (fpOf "c6") ∈ taskHashes [Event.task c6Task] :=
  c6_garbage_collection [Event.task c6Task] cexPlatform
    [(fpOf "old", { inputs := [], region := "zzz", message := "m" })]
    false none none
    [Event.task { c6Task with status := some TaskStatus.run }]
    [(fpOf "c6", { inputs := [], region := "r0", message := "" })]
    rfl (fpOf "c6", { inputs := [], region := "r0", message := "" })
    (by simp)

/-! ### C2 -/

/-- Task A of the C2 counterexample: produces `vector/x`, classified RUN
(unseen fingerprint). -/
def c2TaskA : Task := mkFixTask "a" (some "0") [] [vecX] [] false

/-- A task between A and B that also produces `vector/x` and is SKIP. -/
def c2TaskC : Task := mkFixTask "c" (some "1") [] [vecX] [] false

/-- Task B of the C2 counterexample: consumes `vector/x`. -/
def c2TaskB : Task := mkFixTask "b" (some "2") [vecX] [] [] false

/-- History containing up-to-date entries for `c2TaskC` and `c2TaskB`. -/
def c2Hist : History :=
  [(fpOf "c", { inputs := [], region := "r0", message := "" }),
   (fpOf "b", { inputs := [], region := "r0", message := "" })]

/-- C2 counterexample: A precedes B, A outputs `vector/x`, B inputs it (it
exists in the store), no override applies to B, B's fingerprint is known
at the current region — yet A is RUN while B is SKIP, because the
interposed producer C overwrote the creator-map entry and C is SKIP. -/
theorem c2_counterexample :
    c2TaskA.outputs = [vecX] ∧ c2TaskB.inputs = [vecX] ∧
    cexPlatform.mapExists vecX.rtype vecX.name = true ∧
    (∃ h', analyse
        [Event.task c2TaskA, Event.task c2TaskC, Event.task c2TaskB]
        cexPlatform c2Hist false none none =
      some ([Event.task { c2TaskA with status := some TaskStatus.run },
             Event.task { c2TaskC with status := some TaskStatus.skip },
             Event.task { c2TaskB with status := some TaskStatus.skip }], h')) :=
  ⟨rfl, rfl, rfl, ⟨_, rfl⟩⟩

/-- C2 amended: let X be a store-entry input of B whose creator-map entry
at B's classification points to a task A (so A is the most recent
producer of X not since removed).  (i) If A's status is RUN then B is
RUN, provided no override applies to B, B is not `always`, B's outputs
exist, B's fingerprint is in history at the current region, B's store
inputs exist and B's file inputs exist.  (ii) If A's status is SKIP then
X contributes nothing: B's classification equals that of B with X erased
from its input list. -/
theorem c2_amended :
    (∀ (p : Planner) (t : Task) (x : Resource) (aref : Option String),
      p.force = false → p.only = none → p.skip = none → t.always = false →
      (∀ ro ∈ t.outputs, outputDecision p ro = some OutputStatus.exists) →
      (∃ e, dictGet p.history t.hash = some e ∧
        e.region = p.platform.regionHash) →
      x ∈ t.inputs → x.rtype ≠ RType.file →
      dictGet p.created x.refStr = some aref →
      dictGet p.statuses aref = some TaskStatus.run →
      (∀ r ∈ t.inputs, r.rtype ≠ RType.file →
        p.platform.mapExists r.rtype r.name = true) →
      (∀ r ∈ t.inputs, r.rtype = RType.file →
        p.platform.fileExists r.path = true) →
      taskStatus p t = TaskStatus.run) ∧
    (∀ (p : Planner) (t : Task) (x : Resource),
      x.rtype ≠ RType.file →
      p.platform.mapExists x.rtype x.name = true →
      (∃ aref, dictGet p.created x.refStr = some aref ∧
        dictGet p.statuses aref = some TaskStatus.skip) →
      taskStatus p t =
        taskStatus p { t with inputs := t.inputs.filter (fun r => decide (r ≠ x)) }) := by
  constructor
  · intro p t x aref hf ho hs ha houts hhist hx hxg hcr hst hmaps hfiles
    have htree : taskDecisionTree p t = none := by
      simp [taskDecisionTree, hf, ho, hs, ha]
    have hany : t.outputs.any
        (fun ro => decide (outputDecision p ro ≠ some OutputStatus.exists)) = false := by
      simp only [List.any_eq_false, decide_eq_true_eq]
      intro ro hro
      simp [houts ro hro]
    obtain ⟨e, he, hreg⟩ := hhist
    have hnofail : InputStatus.fail ∉ t.inputs.map (inputDecision p t.hash) := by
      intro hcontra
      rcases List.mem_map.mp hcontra with ⟨r, hr, hdr⟩
      by_cases hrt : r.rtype = RType.file
      · rw [inputDecision, if_neg (by simp [hrt]), if_pos hrt,
          if_pos (hfiles r hr hrt)] at hdr
        split at hdr
        all_goals first
          | exact InputStatus.noConfusion hdr
          | (split at hdr <;> exact InputStatus.noConfusion hdr)
      · rw [inputDecision, if_pos hrt, if_pos (hmaps r hr hrt)] at hdr
        split at hdr
        all_goals first
          | exact InputStatus.noConfusion hdr
          | (split at hdr <;> exact InputStatus.noConfusion hdr)
    have hchange : InputStatus.change ∈ t.inputs.map (inputDecision p t.hash) := by
      refine List.mem_map.mpr ⟨x, hx, ?_⟩
      rw [inputDecision, if_pos hxg, if_pos (hmaps x hx hxg), hcr]
      simp [hst]
    unfold taskStatus
    rw [htree]
    simp only [hany, Bool.false_eq_true, if_false, he, hreg, ne_eq,
      not_true_eq_false]
    by_cases hu : InputStatus.unknown ∈ t.inputs.map (inputDecision p t.hash)
    · simp [aggregateInputs, hnofail, hu]
    · simp [aggregateInputs, hnofail, hu, hchange]
  · intro p t x hxg hmap hcr
    obtain ⟨aref, hcr, hsk⟩ := hcr
    have hd : inputDecision p t.hash x = InputStatus.nochange := by
      rw [inputDecision, if_pos hxg, if_pos hmap, hcr]
      simp [hsk]
    have hmem : ∀ s : InputStatus, s ≠ InputStatus.nochange →
        ((s ∈ (t.inputs.filter (fun r => decide (r ≠ x))).map
            (inputDecision p t.hash)) ↔
          s ∈ t.inputs.map (inputDecision p t.hash)) := by
      intro s hsne
      constructor
      · intro hm
        rcases List.mem_map.mp hm with ⟨r, hr, hdr⟩
        exact List.mem_map.mpr ⟨r, (List.mem_filter.mp hr).1, hdr⟩
      · intro hm
        rcases List.mem_map.mp hm with ⟨r, hr, hdr⟩
        have hrx : r ≠ x := by
          rintro rfl
          rw [hd] at hdr
          exact hsne hdr.symm
        exact List.mem_map.mpr ⟨r, List.mem_filter.mpr ⟨hr, by simp [hrx]⟩, hdr⟩
    have e1 : taskDecisionTree p
        { t with inputs := t.inputs.filter (fun r => decide (r ≠ x)) } =
        taskDecisionTree p t := rfl
    have hagg : aggregateInputs
        ((t.inputs.filter (fun r => decide (r ≠ x))).map (inputDecision p t.hash)) =
        aggregateInputs (t.inputs.map (inputDecision p t.hash)) := by
      have hfi := hmem InputStatus.fail (by decide)
      have hui := hmem InputStatus.unknown (by decide)
      have hci := hmem InputStatus.change (by decide)
      unfold aggregateInputs
      by_cases h1 : InputStatus.fail ∈ t.inputs.map (inputDecision p t.hash)
      · rw [if_pos (hfi.mpr h1), if_pos h1]
      · rw [if_neg (fun hh => h1 (hfi.mp hh)), if_neg h1]
        by_cases h2 : InputStatus.unknown ∈ t.inputs.map (inputDecision p t.hash)
        · rw [if_pos (hui.mpr h2), if_pos h2]
        · rw [if_neg (fun hh => h2 (hui.mp hh)), if_neg h2]
          by_cases h3 : InputStatus.change ∈ t.inputs.map (inputDecision p t.hash)
          · rw [if_pos (hci.mpr h3), if_pos h3]
          · rw [if_neg (fun hh => h3 (hci.mp hh)), if_neg h3]
    have hinsame : ({ t with
        inputs := t.inputs.filter (fun r => decide (r ≠ x)) } : Task).inputs =
        t.inputs.filter (fun r => decide (r ≠ x)) := rfl
    have hhashsame : ({ t with
        inputs := t.inputs.filter (fun r => decide (r ≠ x)) } : Task).hash =
        t.hash := rfl
    have houtsame : ({ t with
        inputs := t.inputs.filter (fun r => decide (r ≠ x)) } : Task).outputs =
        t.outputs := rfl
    unfold taskStatus
    rw [e1]
    cases htree : taskDecisionTree p t with
    | some s => rfl
    | none =>
      rw [hinsame, hhashsame, houtsame]
      by_cases hob : (t.outputs.any
          fun r => decide (outputDecision p r ≠ some OutputStatus.exists)) = true
      · simp only [if_pos hob]
      · simp only [if_neg hob]
        cases hh : dictGet p.history t.hash with
        | none => rfl
        | some entry =>
          simp only [hh]
          by_cases hrg : entry.region ≠ p.platform.regionHash
          · simp [hrg]
          · simp only [if_neg hrg]
            exact hagg.symm

/-- Planner for the C2 part-(i) witness: creator of `vector/x` is task
`0`, whose status is RUN; B's fingerprint is known at the current
region. -/
def c2RunPlanner : Planner :=
  { platform := cexPlatform
    history := [(fpOf "b2", { inputs := [], region := "r0", message := "" })]
    created := [("vector/x", some "0")]
    statuses := [(some "0", TaskStatus.run)]
    force := false, skip := none, only := none }

/-- Planner for the C2 part-(ii) witness: creator of `vector/x` is task
`0`, whose status is SKIP. -/
def c2SkipPlanner : Planner :=
  { platform := cexPlatform
    history := [(fpOf "b2", { inputs := [], region := "r0", message := "" })]
    created := [("vector/x", some "0")]
    statuses := [(some "0", TaskStatus.skip)]
    force := false, skip := none, only := none }

/-- The consumer task of the C2 witnesses. -/
def c2WTask : Task := mkFixTask "b2" (some "1") [vecX] [] [] false

/-- C2 amended, witnessed on both branches. -/
theorem c2_amended_witness :
    taskStatus c2RunPlanner c2WTask = TaskStatus.run ∧
    taskStatus c2SkipPlanner c2WTask =
      taskStatus c2SkipPlanner
        { c2WTask with inputs := c2WTask.inputs.filter (fun r => decide (r ≠ vecX)) } :=
  ⟨c2_amended.1 c2RunPlanner c2WTask vecX (some "0") rfl rfl rfl rfl
      (by intro ro hro; simp [c2WTask, mkFixTask] at hro)
      ⟨{ inputs := [], region := "r0", message := "" }, rfl, rfl⟩
      (by simp [c2WTask, mkFixTask]) (by decide) rfl rfl
      (by intro r hr hrg; rfl)
      (by
        intro r hr hrf
        simp [c2WTask, mkFixTask] at hr
        subst hr
        exact absurd hrf (by decide)),
   c2_amended.2 c2SkipPlanner c2WTask vecX (by decide) rfl
      ⟨some "0", rfl, rfl⟩⟩

/-! ### C8 -/

/-- A task event built by `load` carries the reference path it was built
with. -/
theorem mkTaskEvent_ref (parent refv : Option String) (o : TaskOptions) (t : Task)
    (h : mkTaskEvent parent refv o = some t) : t.ref = refv := by
  unfold mkTaskEvent at h
  split at h
  · simp only [Option.some.injEq] at h
    subst h
    rfl
  · exact Option.noConfusion h

/-- The LocationEvent triple emitted on entering the root pipeline:
config overrides first, then the pipeline-entry params, then the `load`
arguments. -/
def rootLocTriple (rootPP : PipeParams) (rootCfg : PConfig)
    (gdb loc : Option String) (ms : String) :
    Option String × LocSlot × String :=
  (rootCfg.gisdbase <|> (rootPP.gisdbase <|> gdb),
   (match rootCfg.location with
    | some s => LocSlot.str s
    | none =>
      match rootPP.location with
      | some s => LocSlot.str s
      | none => match loc with | some s => LocSlot.str s | none => LocSlot.noneV),
   rootCfg.mapset.getD (rootPP.mapset.getD ms))

/-- The LocationEvent triple emitted on entering a nested pipeline, whose
inherited location default is the previously emitted LocationEvent (the
source's rebound `location` variable). -/
def nestedLocTriple (pPP : PipeParams) (pCfg : PConfig) (gdb : Option String)
    (ms : String) (parent : Option String × LocSlot × String) :
    Option String × LocSlot × String :=
  (pCfg.gisdbase <|> (pPP.gisdbase <|> gdb),
   (match pCfg.location with
    | some s => LocSlot.str s
    | none =>
      match pPP.location with
      | some s => LocSlot.str s
      | none => LocSlot.ev parent.1 parent.2.1 parent.2.2),
   pCfg.mapset.getD (pPP.mapset.getD ms))

/-- C8: for a root pipeline whose task list is `[task A, pipeline P, task
C]` where `P` holds the single task `B`, `load` emits exactly, in order:
the root LocationEvent, A at reference path `0`, P's LocationEvent, B at
`1/0`, the root LocationEvent again (scope restored), and C at `2`. -/
theorem c8_expansion_order (env : String → Option PConfig) (fuel : Nat)
    (rootName pName : String) (rootPP pPP : PipeParams)
    (rootCfg pCfg : PConfig) (aOpts bOpts cOpts : TaskOptions)
    (ta tb tc : Task) (gdb loc : Option String) (ms : String)
    (hfuel : 6 ≤ fuel)
    (henvR : env rootName = some rootCfg)
    (htasksR : rootCfg.tasks =
      [POptions.task aOpts, POptions.pipeline pName pPP, POptions.task cOpts])
    (henvP : env pName = some pCfg)
    (htasksP : pCfg.tasks = [POptions.task bOpts])
    (hta : mkTaskEvent (some rootName) (some "0") aOpts = some ta)
    (htb : mkTaskEvent (some pName) (some "1/0") bOpts = some tb)
    (htc : mkTaskEvent (some rootName) (some "2") cOpts = some tc) :
    ∃ g1 l1 m1 g2 l2 m2,
      load env fuel (POptions.pipeline rootName rootPP) gdb loc ms =
        some [Event.location g1 l1 m1, Event.task ta,
              Event.location g2 l2 m2, Event.task tb,
              Event.location g1 l1 m1, Event.task tc] ∧
      ta.ref = some "0" ∧ tb.ref = some "1/0" ∧ tc.ref = some "2" := by
  obtain ⟨k, hk⟩ := Nat.le.dest hfuel
  subst hk
  rw [Nat.add_comm]
  have hr0 : mkRef none 0 = "0" := rfl
  have hr1 : mkRef none 1 = "1" := rfl
  have hr2 : mkRef none 2 = "2" := rfl
  have hr10 : mkRef (some "1") 0 = "1/0" := rfl
  refine ⟨(rootLocTriple rootPP rootCfg gdb loc ms).1,
    (rootLocTriple rootPP rootCfg gdb loc ms).2.1,
    (rootLocTriple rootPP rootCfg gdb loc ms).2.2,
    (nestedLocTriple pPP pCfg gdb ms (rootLocTriple rootPP rootCfg gdb loc ms)).1,
    (nestedLocTriple pPP pCfg gdb ms (rootLocTriple rootPP rootCfg gdb loc ms)).2.1,
    (nestedLocTriple pPP pCfg gdb ms (rootLocTriple rootPP rootCfg gdb loc ms)).2.2,
    ?_, mkTaskEvent_ref _ _ _ _ hta, mkTaskEvent_ref _ _ _ _ htb,
    mkTaskEvent_ref _ _ _ _ htc⟩
  simp only [load, loadGo, henvR, htasksR, henvP, htasksP, hta, htb, htc,
    hr0, hr1, hr2, hr10, rootLocTriple, nestedLocTriple,
    List.enum, List.enumFrom, List.map, List.cons_append, List.nil_append,
    Option.map_some']

/-- Minimal task options named `nm` with every optional field absent. -/
def bareOpts (nm : String) : TaskOptions :=
  { task := nm, params := none, inputs := none, outputs := none,
    removes := none, message := none, always := none }

/-- The task event `load` builds for `bareOpts nm` at `parent`/`refv`. -/
def bareTask (nm : String) (parent refv : Option String) : Task :=
  { task := nm, params := PVal.nilT, inputs := [], outputs := [],
    removes := [], message := "", always := false, pipeline := parent,
    ref := refv, hash := fpOf nm, status := none }

/-- A two-template environment: `root` holding `[A, pipeline sub, C]` and
`sub` holding `[B]`. -/
def c8Env : String → Option PConfig := fun n =>
  if n = "root" then
    some { gisdbase := none, location := none, mapset := none,
           tasks := [POptions.task (bareOpts "a"),
                     POptions.pipeline "sub" ⟨none, none, none⟩,
                     POptions.task (bareOpts "c")] }
  else if n = "sub" then
    some { gisdbase := none, location := some "rasters",
           mapset := some "soils", tasks := [POptions.task (bareOpts "b")] }
  else none

/-- C8 witnessed on the concrete two-template environment. -/
theorem c8_expansion_order_witness :
    ∃ g1 l1 m1 g2 l2 m2,
      load c8Env 6 (POptions.pipeline "root" ⟨none, none, none⟩)
          none none "PERMANENT" =
        some [Event.location g1 l1 m1, Event.task (bareTask "a" (some "root") (some "0")),
              Event.location g2 l2 m2, Event.task (bareTask "b" (some "sub") (some "1/0")),
              Event.location g1 l1 m1, Event.task (bareTask "c" (some "root") (some "2"))] ∧
      (bareTask "a" (some "root") (some "0")).ref = some "0" ∧
      (bareTask "b" (some "sub") (some "1/0")).ref = some "1/0" ∧
      (bareTask "c" (some "root") (some "2")).ref = some "2" :=
  c8_expansion_order c8Env 6 "root" "sub" ⟨none, none, none⟩ ⟨none, none, none⟩
    _ _ (bareOpts "a") (bareOpts "b") (bareOpts "c") _ _ _ none none "PERMANENT"
    (le_refl 6) rfl rfl rfl rfl rfl rfl rfl

/-! ### C1 -/

/-- The creator-map evolution of `analyse` replayed on its own: statuses
and history do not influence it. -/
def creatorTrack (c : List (String × Option String)) :
    List Event → Option (List (String × Option String))
  | [] => some c
  | Event.location _ _ _ :: rest => creatorTrack c rest
  | Event.task t :: rest =>
    match removeAll (t.outputs.foldl (fun cc r => dictSet cc r.refStr t.ref) c)
        t.removes with
    | some c' => creatorTrack c' rest
    | none => none

theorem dictGet_mem {κ α : Type} [DecidableEq κ] (d : List (κ × α)) (k : κ)
    (v : α) (h : dictGet d k = some v) : (k, v) ∈ d := by
  induction d with
  | nil => simp [dictGet] at h
  | cons p rest ih =>
    cases p with
    | mk k1 v1 =>
      by_cases h1 : k1 = k
      · subst h1
        simp [dictGet] at h
        simp [h]
      · simp [dictGet, h1] at h
        exact List.mem_cons_of_mem _ (ih h)

theorem removeAll_mem (rs : List Resource) (c c' : List (String × Option String))
    (h : removeAll c rs = some c') (kv : String × Option String)
    (hm : kv ∈ c') : kv ∈ c := by
  induction rs generalizing c with
  | nil =>
    simp only [removeAll, Option.some.injEq] at h
    subst h
    exact hm
  | cons r rest ih =>
    simp only [removeAll] at h
    cases hd : dictDel c r.refStr with
    | none => rw [hd] at h; exact Option.noConfusion h
    | some c1 =>
      rw [hd] at h
      exact mem_dictDel c c1 r.refStr hd kv (ih c1 h)

theorem mem_foldl_dictSet (rs : List Resource) (v : Option String)
    (c : List (String × Option String)) (kv : String × Option String)
    (h : kv ∈ rs.foldl (fun cc r => dictSet cc r.refStr v) c) :
    kv.2 = v ∨ kv ∈ c := by
  induction rs generalizing c with
  | nil => exact Or.inr h
  | cons r rest ih =>
    rcases ih (dictSet c r.refStr v) h with h' | h'
    · exact Or.inl h'
    · rcases mem_dictSet c r.refStr v kv h' with h'' | h''
      · exact Or.inl (by rw [h''])
      · exact Or.inr h''

/-- Looking up a key after the file-input recording fold: either the base
value survives, or some file input with that ref wrote its current
mtime. -/
theorem recordInputs_get_cases (plat : Platform) (inputs : List Resource)
    (base : List (String × Int)) (k : String) :
    dictGet (recordInputs plat base inputs) k = dictGet base k ∨
    ∃ r, r ∈ inputs ∧ r.rtype = RType.file ∧ r.refStr = k ∧
      dictGet (recordInputs plat base inputs) k = some (plat.fileMtime r.path) := by
  induction inputs generalizing base with
  | nil => exact Or.inl rfl
  | cons x xs ih =>
    have hstep : recordInputs plat base (x :: xs) =
        recordInputs plat
          (if x.rtype = RType.file then dictSet base x.refStr (plat.fileMtime x.path)
           else base) xs := by
      simp [recordInputs]
    by_cases hxf : x.rtype = RType.file
    · by_cases hxk : x.refStr = k
      · rcases ih (dictSet base x.refStr (plat.fileMtime x.path)) with h' | h'
        · refine Or.inr ⟨x, List.mem_cons_self x xs, hxf, hxk, ?_⟩
          rw [hstep, if_pos hxf, h', ← hxk]
          exact dictGet_set_self base x.refStr (plat.fileMtime x.path)
        · rcases h' with ⟨r, hr, hrf, hrk, hval⟩
          refine Or.inr ⟨r, List.mem_cons_of_mem _ hr, hrf, hrk, ?_⟩
          rw [hstep, if_pos hxf]
          exact hval
      · rcases ih (dictSet base x.refStr (plat.fileMtime x.path)) with h' | h'
        · refine Or.inl ?_
          rw [hstep, if_pos hxf, h',
            dictGet_set_ne base x.refStr k (plat.fileMtime x.path)
              (fun he => hxk he.symm)]
        · rcases h' with ⟨r, hr, hrf, hrk, hval⟩
          refine Or.inr ⟨r, List.mem_cons_of_mem _ hr, hrf, hrk, ?_⟩
          rw [hstep, if_pos hxf]
          exact hval
    · rcases ih base with h' | h'
      · exact Or.inl (by rw [hstep, if_neg hxf]; exact h')
      · rcases h' with ⟨r, hr, hrf, hrk, hval⟩
        refine Or.inr ⟨r, List.mem_cons_of_mem _ hr, hrf, hrk, ?_⟩
        rw [hstep, if_neg hxf]
        exact hval

/-- Every file input's ref is recorded after the fold, with the current
mtime of some file input sharing its ref. -/
theorem recordInputs_get_written (plat : Platform) (inputs : List Resource)
    (base : List (String × Int)) (r : Resource) (hr : r ∈ inputs)
    (hrf : r.rtype = RType.file) :
    ∃ r', r' ∈ inputs ∧ r'.rtype = RType.file ∧ r'.refStr = r.refStr ∧
      dictGet (recordInputs plat base inputs) r.refStr =
        some (plat.fileMtime r'.path) := by
  induction inputs generalizing base with
  | nil => simp at hr
  | cons x xs ih =>
    have hstep : recordInputs plat base (x :: xs) =
        recordInputs plat
          (if x.rtype = RType.file then dictSet base x.refStr (plat.fileMtime x.path)
           else base) xs := by
      simp [recordInputs]
    rcases List.mem_cons.mp hr with hrx | hrxs
    · subst hrx
      rcases recordInputs_get_cases plat xs
          (dictSet base r.refStr (plat.fileMtime r.path)) r.refStr with h' | h'
      · refine ⟨r, List.mem_cons_self r xs, hrf, rfl, ?_⟩
        rw [hstep, if_pos hrf, h', dictGet_set_self]
      · rcases h' with ⟨r', hr', hrf', hrk', hval'⟩
        refine ⟨r', List.mem_cons_of_mem _ hr', hrf', hrk', ?_⟩
        rw [hstep, if_pos hrf]
        exact hval'
    · rcases ih _ hrxs with ⟨r', hr', hrf', hrk', hval'⟩
      exact ⟨r', List.mem_cons_of_mem _ hr', hrf', hrk', by rw [hstep]; exact hval'⟩

/-- A task whose input resources were parsed from their refs, as `load`
produces them: the canonical string determines the resource. -/
def wfTask (t : Task) : Prop :=
  ∀ r ∈ t.inputs, Resource.parse r.refStr = Except.ok r

theorem wf_refStr_inj (t t' : Task) (hw : wfTask t) (hw' : wfTask t')
    (r r' : Resource) (hr : r ∈ t.inputs) (hr' : r' ∈ t'.inputs)
    (he : r'.refStr = r.refStr) : r' = r := by
  have h1 := hw r hr
  have h2 := hw' r' hr'
  rw [he, h1] at h2
  injection h2 with h3
  exact h3.symm

/-- After a run against platform `plat`, the history entry of `t` records
the current region and the current mtime of every file input. -/
def recordedFor (plat : Platform) (h : History) (t : Task) : Prop :=
  ∃ e, dictGet h t.hash = some e ∧ e.region = plat.regionHash ∧
    ∀ r ∈ t.inputs, r.rtype = RType.file →
      dictGet e.inputs r.refStr = some (plat.fileMtime r.path)

/-- Entering the second run: the history entry of `t` exists at the
current region, with every file input's recorded mtime at least the
current one. -/
def histGood2 (plat : Platform) (h : History) (t : Task) : Prop :=
  ∃ e, dictGet h t.hash = some e ∧ e.region = plat.regionHash ∧
    ∀ r ∈ t.inputs, r.rtype = RType.file →
      ∃ v, dictGet e.inputs r.refStr = some v ∧ plat.fileMtime r.path ≤ v

theorem recordedFor_step (p : Planner) (comp : List TaskHashable) (t0 t : Task)
    (p' : Planner) (comp' : List TaskHashable) (ev' : Event)
    (hstep : analyseStep p comp (Event.task t0) = some (p', comp', ev'))
    (hw0 : wfTask t0) (hwt : wfTask t)
    (hrec : recordedFor p.platform p.history t) :
    recordedFor p.platform p'.history t := by
  obtain ⟨-, -, -, -, -, -, hhist, -, -⟩ :=
    analyseStep_task_parts p comp t0 p' comp' ev' hstep
  obtain ⟨e, he, hreg, hins⟩ := hrec
  by_cases hh : t.hash = t0.hash
  · refine ⟨{ inputs := recordInputs p.platform (histBase p t0) t0.inputs
              region := p.platform.regionHash
              message := t0.message }, ?_, rfl, ?_⟩
    · rw [hhist, hh]
      exact dictGet_set_self _ _ _
    · intro r hr hrf
      have hbase : histBase p t0 = e.inputs := by
        unfold histBase
        rw [← hh, he]
      show dictGet (recordInputs p.platform (histBase p t0) t0.inputs) r.refStr = _
      rw [hbase]
      rcases recordInputs_get_cases p.platform t0.inputs e.inputs r.refStr with h' | h'
      · rw [h']
        exact hins r hr hrf
      · rcases h' with ⟨r', hr', hrf', hrk', hval'⟩
        have heq : r' = r := wf_refStr_inj t t0 hwt hw0 r r' hr hr' hrk'
        rw [hval', heq]
  · refine ⟨e, ?_, hreg, hins⟩
    rw [hhist, dictGet_set_ne p.history t0.hash t.hash _ hh]
    exact he

theorem histGood2_step (p : Planner) (comp : List TaskHashable) (t0 t : Task)
    (p' : Planner) (comp' : List TaskHashable) (ev' : Event)
    (hstep : analyseStep p comp (Event.task t0) = some (p', comp', ev'))
    (hw0 : wfTask t0) (hwt : wfTask t)
    (hrec : histGood2 p.platform p.history t) :
    histGood2 p.platform p'.history t := by
  obtain ⟨-, -, -, -, -, -, hhist, -, -⟩ :=
    analyseStep_task_parts p comp t0 p' comp' ev' hstep
  obtain ⟨e, he, hreg, hins⟩ := hrec
  by_cases hh : t.hash = t0.hash
  · refine ⟨{ inputs := recordInputs p.platform (histBase p t0) t0.inputs
              region := p.platform.regionHash
              message := t0.message }, ?_, rfl, ?_⟩
    · rw [hhist, hh]
      exact dictGet_set_self _ _ _
    · intro r hr hrf
      have hbase : histBase p t0 = e.inputs := by
        unfold histBase
        rw [← hh, he]
      show ∃ v, dictGet (recordInputs p.platform (histBase p t0) t0.inputs) r.refStr
          = some v ∧ _
      rw [hbase]
      rcases recordInputs_get_cases p.platform t0.inputs e.inputs r.refStr with h' | h'
      · obtain ⟨v, hv, hle⟩ := hins r hr hrf
        exact ⟨v, by rw [h']; exact hv, hle⟩
      · rcases h' with ⟨r', hr', hrf', hrk', hval'⟩
        have heq : r' = r := wf_refStr_inj t t0 hwt hw0 r r' hr hr' hrk'
        rw [heq] at hval'
        exact ⟨p.platform.fileMtime r.path, hval', le_refl _⟩
  · refine ⟨e, ?_, hreg, hins⟩
    rw [hhist, dictGet_set_ne p.history t0.hash t.hash _ hh]
    exact he

theorem analyseGo_completed_mono (evs : List Event) (p : Planner)
    (c : List TaskHashable) (out : List Event) (pf : Planner)
    (cf : List TaskHashable) (hgo : analyseGo p c evs = some (out, pf, cf)) :
    ∀ k ∈ c, k ∈ cf := by
  induction evs generalizing p c out with
  | nil =>
    simp only [analyseGo, Option.some.injEq, Prod.mk.injEq] at hgo
    obtain ⟨-, -, hcf⟩ := hgo
    subst hcf
    exact fun k hk => hk
  | cons ev rest ih =>
    simp only [analyseGo] at hgo
    cases hstep : analyseStep p c ev with
    | none => rw [hstep] at hgo; exact Option.noConfusion hgo
    | some tr =>
      obtain ⟨p', c', ev'⟩ := tr
      simp only [hstep] at hgo
      cases hrec : analyseGo p' c' rest with
      | none =>
        simp only [hrec] at hgo
        exact Option.noConfusion hgo
      | some r =>
        obtain ⟨out', pf', cf'⟩ := r
        simp only [hrec, Option.some.injEq, Prod.mk.injEq] at hgo
        obtain ⟨-, hpf, hcf⟩ := hgo
        subst hpf
        subst hcf
        intro k hk
        cases ev with
        | location g l m =>
          have hps : p = p' ∧ c = c' := by
            simp only [analyseStep, Option.some.injEq, Prod.mk.injEq] at hstep
            exact ⟨hstep.1, hstep.2.1⟩
          obtain ⟨hp, hc⟩ := hps
          subst hp
          subst hc
          exact ih p c out' hrec k hk
        | task t =>
          have hc' := (analyseStep_task_parts p c t p' c' ev' hstep).1
          subst hc'
          exact ih p' (t.hash :: c) out' hrec k (List.mem_cons_of_mem _ hk)

theorem recordedFor_go (evs : List Event) (p : Planner) (c : List TaskHashable)
    (out : List Event) (pf : Planner) (cf : List TaskHashable)
    (hgo : analyseGo p c evs = some (out, pf, cf))
    (hwf : ∀ t' ∈ taskEvents evs, wfTask t') (t : Task) (hwt : wfTask t)
    (hrec : recordedFor p.platform p.history t) :
    recordedFor p.platform pf.history t := by
  induction evs generalizing p c out with
  | nil =>
    simp only [analyseGo, Option.some.injEq, Prod.mk.injEq] at hgo
    obtain ⟨-, hpf, -⟩ := hgo
    subst hpf
    exact hrec
  | cons ev rest ih =>
    simp only [analyseGo] at hgo
    cases hstep : analyseStep p c ev with
    | none => rw [hstep] at hgo; exact Option.noConfusion hgo
    | some tr =>
      obtain ⟨p', c', ev'⟩ := tr
      simp only [hstep] at hgo
      cases hrec2 : analyseGo p' c' rest with
      | none =>
        simp only [hrec2] at hgo
        exact Option.noConfusion hgo
      | some r =>
        obtain ⟨out', pf', cf'⟩ := r
        simp only [hrec2, Option.some.injEq, Prod.mk.injEq] at hgo
        obtain ⟨-, hpf, hcf⟩ := hgo
        subst hpf
        subst hcf
        cases ev with
        | location g l m =>
          have hps : p = p' ∧ c = c' := by
            simp only [analyseStep, Option.some.injEq, Prod.mk.injEq] at hstep
            exact ⟨hstep.1, hstep.2.1⟩
          obtain ⟨hp1, hc1⟩ := hps
          subst hp1
          subst hc1
          exact ih p c out' hrec2
            (fun t' ht' => hwf t' (by simpa [taskEvents] using ht')) hrec
        | task t0 =>
          have hplat := (analyseStep_task_parts p c t0 p' c' ev' hstep).2.1
          have hw0 : wfTask t0 := hwf t0 (by simp [taskEvents])
          have hstepped := recordedFor_step p c t0 t p' c' ev' hstep hw0 hwt hrec
          rw [← hplat] at hstepped
          have hres := ih p' c' out' hrec2
            (fun t' ht' => hwf t' (by
              simp only [taskEvents, List.mem_cons]
              exact Or.inr ht')) hstepped
          rwa [hplat] at hres

/-- Running `analyse`'s loop records every processed task: its fingerprint
joins the completed set and its history entry carries the current region
and file-input mtimes. -/
theorem analyseGo_records (evs : List Event) (p : Planner) (c : List TaskHashable)
    (out : List Event) (pf : Planner) (cf : List TaskHashable)
    (hgo : analyseGo p c evs = some (out, pf, cf))
    (hwf : ∀ t' ∈ taskEvents evs, wfTask t') :
    ∀ t ∈ taskEvents evs, recordedFor p.platform pf.history t ∧ t.hash ∈ cf := by
  induction evs generalizing p c out with
  | nil => simp [taskEvents]
  | cons ev rest ih =>
    simp only [analyseGo] at hgo
    cases hstep : analyseStep p c ev with
    | none => rw [hstep] at hgo; exact Option.noConfusion hgo
    | some tr =>
      obtain ⟨p', c', ev'⟩ := tr
      simp only [hstep] at hgo
      cases hrec2 : analyseGo p' c' rest with
      | none =>
        simp only [hrec2] at hgo
        exact Option.noConfusion hgo
      | some r =>
        obtain ⟨out', pf', cf'⟩ := r
        simp only [hrec2, Option.some.injEq, Prod.mk.injEq] at hgo
        obtain ⟨-, hpf, hcf⟩ := hgo
        subst hpf
        subst hcf
        intro t ht
        cases ev with
        | location g l m =>
          have hps : p = p' ∧ c = c' := by
            simp only [analyseStep, Option.some.injEq, Prod.mk.injEq] at hstep
            exact ⟨hstep.1, hstep.2.1⟩
          obtain ⟨hp1, hc1⟩ := hps
          subst hp1
          subst hc1
          exact ih p c out' hrec2
            (fun t' ht' => hwf t' (by simpa [taskEvents] using ht'))
            t (by simpa [taskEvents] using ht)
        | task t0 =>
          obtain ⟨hc', hplat, -, -, -, -, hhist, -, -⟩ :=
            analyseStep_task_parts p c t0 p' c' ev' hstep
          subst hc'
          have hw0 : wfTask t0 := hwf t0 (by simp [taskEvents])
          have hwrest : ∀ t' ∈ taskEvents rest, wfTask t' := fun t' ht' =>
            hwf t' (by
              simp only [taskEvents, List.mem_cons]
              exact Or.inr ht')
          rcases (by simpa [taskEvents] using ht :
              t = t0 ∨ t ∈ taskEvents rest) with hteq | htrest
          · subst hteq
            constructor
            · have hbase : recordedFor p.platform p'.history t := by
                refine ⟨{ inputs := recordInputs p.platform (histBase p t) t.inputs
                          region := p.platform.regionHash
                          message := t.message }, ?_, rfl, ?_⟩
                · rw [hhist]
                  exact dictGet_set_self _ _ _
                · intro r hr hrf
                  show dictGet (recordInputs p.platform (histBase p t) t.inputs)
                      r.refStr = _
                  rcases recordInputs_get_written p.platform t.inputs
                      (histBase p t) r hr hrf with ⟨r', hr', hrf', hrk', hval'⟩
                  have heq : r' = r := wf_refStr_inj t t hw0 hw0 r r' hr hr' hrk'
                  rw [hval', heq]
              have hpres := recordedFor_go rest p' (t.hash :: c) out' pf' cf'
                hrec2 hwrest t hw0 (by rw [hplat]; exact hbase)
              rwa [hplat] at hpres
            · exact analyseGo_completed_mono rest p' (t.hash :: c) out' pf' cf'
                hrec2 t.hash (List.mem_cons_self _ _)
          · have hres := ih p' (t0.hash :: c) out' hrec2 hwrest t htrest
            rw [hplat] at hres
            exact hres

/-- The first run of `analyse` leaves, for every task of the stream, a
surviving (garbage-collection included) history entry recording the
current region and file-input mtimes. -/
theorem analyse_records (evs : List Event) (p1 : Platform) (h0 : History)
    (force : Bool) (sk : Option (List String)) (only : Option String)
    (out1 : List Event) (h1 : History)
    (h : analyse evs p1 h0 force sk only = some (out1, h1))
    (hwf : ∀ t' ∈ taskEvents evs, wfTask t') :
    ∀ t ∈ taskEvents evs, recordedFor p1 h1 t := by
  unfold analyse at h
  cases hgo : analyseGo
      { platform := p1, history := h0, created := [], statuses := [],
        force := force, skip := sk, only := only } [] evs with
  | none => rw [hgo] at h; exact Option.noConfusion h
  | some r =>
    obtain ⟨out', pf, cf⟩ := r
    rw [hgo] at h
    simp only [Option.some.injEq, Prod.mk.injEq] at h
    obtain ⟨-, hh1⟩ := h
    subst hh1
    intro t ht
    obtain ⟨⟨e, he, hreg, hins⟩, hcf⟩ := analyseGo_records evs _ [] out' pf cf hgo hwf t ht
    refine ⟨e, ?_, hreg, hins⟩
    rw [dictGet_filter pf.history (fun k => decide (k ∈ cf)) t.hash,
      if_pos (by simp [hcf]), he]

theorem aggregateInputs_all_nochange (sts : List InputStatus)
    (h : ∀ s ∈ sts, s = InputStatus.nochange) :
    aggregateInputs sts = TaskStatus.skip := by
  have hf : InputStatus.fail ∉ sts := fun hm => InputStatus.noConfusion (h _ hm)
  have hu : InputStatus.unknown ∉ sts := fun hm => InputStatus.noConfusion (h _ hm)
  have hc : InputStatus.change ∉ sts := fun hm => InputStatus.noConfusion (h _ hm)
  simp [aggregateInputs, hf, hu, hc]

theorem refInSkip_nil (ref : Option String) : refInSkip ref [] = false := by
  cases ref <;> simp [refInSkip]

/-- The second-run induction: when every status so far is SKIP, every
creator-map value has a recorded status, every remaining task's history
entry matches the current region with no newer file input, overrides are
off, no task is `always`, all outputs and inputs exist and every grass
input has a visible creator, the loop classifies every remaining task
SKIP. -/
theorem analyseGo_all_skip (p2 : Platform) (evs : List Event) :
    ∀ (p : Planner) (comp : List TaskHashable) (out : List Event) (pf : Planner)
      (cf : List TaskHashable),
    p.platform = p2 →
    p.force = false → p.only = none → (p.skip = none ∨ p.skip = some []) →
    (∀ kv ∈ p.statuses, kv.2 = TaskStatus.skip) →
    (∀ kv ∈ p.created, (dictGet p.statuses kv.2).isSome) →
    (∀ t ∈ taskEvents evs, t.always = false) →
    (∀ t ∈ taskEvents evs, ∀ r ∈ t.outputs,
      (r.rtype ≠ RType.file → p2.mapExists r.rtype r.name = true) ∧
      (r.rtype = RType.file → p2.fileExists r.path = true)) →
    (∀ t ∈ taskEvents evs, ∀ r ∈ t.inputs, r.rtype = RType.file →
      p2.fileExists r.path = true) →
    (∀ t ∈ taskEvents evs, ∀ r ∈ t.inputs, r.rtype ≠ RType.file →
      p2.mapExists r.rtype r.name = true) →
    (∀ t ∈ taskEvents evs, wfTask t) →
    (∀ t ∈ taskEvents evs, histGood2 p2 p.history t) →
    (∀ pre t post, evs = pre ++ Event.task t :: post →
      ∀ r ∈ t.inputs, r.rtype ≠ RType.file →
      ∃ cm, creatorTrack p.created pre = some cm ∧
        (dictGet cm r.refStr).isSome) →
    analyseGo p comp evs = some (out, pf, cf) →
    ∀ t' ∈ taskEvents out, t'.status = some TaskStatus.skip := by
  induction evs with
  | nil =>
    intro p comp out pf cf _ _ _ _ _ _ _ _ _ _ _ _ _ hgo
    simp only [analyseGo, Option.some.injEq, Prod.mk.injEq] at hgo
    obtain ⟨hout, -, -⟩ := hgo
    subst hout
    simp [taskEvents]
  | cons ev rest ih =>
    intro p comp out pf cf hplat hf ho hsk hstat hcov halw houts hfiles hmaps
      hwf hhist hcreator hgo
    simp only [analyseGo] at hgo
    cases hstep : analyseStep p comp ev with
    | none => rw [hstep] at hgo; exact Option.noConfusion hgo
    | some tr =>
      obtain ⟨p', c', ev'⟩ := tr
      simp only [hstep] at hgo
      cases hrec2 : analyseGo p' c' rest with
      | none =>
        simp only [hrec2] at hgo
        exact Option.noConfusion hgo
      | some r =>
        obtain ⟨out', pf', cf'⟩ := r
        simp only [hrec2, Option.some.injEq, Prod.mk.injEq] at hgo
        obtain ⟨hout, -, -⟩ := hgo
        subst hout
        cases ev with
        | location g l m =>
          obtain ⟨hp1, hc1, hev'⟩ : p = p' ∧ comp = c' ∧
              Event.location g l m = ev' := by
            simp only [analyseStep, Option.some.injEq, Prod.mk.injEq] at hstep
            exact hstep
          subst hp1
          subst hev'
          intro t' ht'
          refine ih p c' out' pf' cf' hplat hf ho hsk hstat hcov
            (fun t ht => halw t (by simpa [taskEvents] using ht))
            (fun t ht => houts t (by simpa [taskEvents] using ht))
            (fun t ht => hfiles t (by simpa [taskEvents] using ht))
            (fun t ht => hmaps t (by simpa [taskEvents] using ht))
            (fun t ht => hwf t (by simpa [taskEvents] using ht))
            (fun t ht => hhist t (by simpa [taskEvents] using ht))
            ?_ hrec2 t' (by simpa [taskEvents] using ht')
          intro pre t post heq r hr hrg
          obtain ⟨cm, hcm, hsome⟩ := hcreator (Event.location g l m :: pre) t post
            (by rw [heq]; rfl) r hr hrg
          exact ⟨cm, by simpa [creatorTrack] using hcm, hsome⟩
        | task t0 =>
          have hmem0 : t0 ∈ taskEvents (Event.task t0 :: rest) := by
            simp [taskEvents]
          obtain ⟨hc', hplat', hf', hsk', ho', hstats', hhist', hev', hra⟩ :=
            analyseStep_task_parts p comp t0 p' c' ev' hstep
          -- the decision tree yields no override
          have htree : taskDecisionTree p t0 = none := by
            rcases hsk with hsk | hsk
            · simp [taskDecisionTree, hf, ho, hsk, halw t0 hmem0]
            · simp [taskDecisionTree, hf, ho, hsk, refInSkip_nil,
                halw t0 hmem0]
          -- every output exists
          have houtdec : ∀ r ∈ t0.outputs,
              outputDecision p r = some OutputStatus.exists := by
            intro r hr
            obtain ⟨hmc, hfc⟩ := houts t0 hmem0 r hr
            by_cases hrf : r.rtype = RType.file
            · simp [outputDecision, hrf, hplat, hfc hrf]
            · simp [outputDecision, hrf, hplat, hmc hrf]
          have hany : t0.outputs.any
              (fun ro => decide (outputDecision p ro ≠ some OutputStatus.exists)) =
                false := by
            simp only [List.any_eq_false, decide_eq_true_eq]
            intro ro hro
            simp [houtdec ro hro]
          obtain ⟨e, he, hreg, hins⟩ := hhist t0 hmem0
          -- every input classifies NOCHANGE
          have hnoch : ∀ s ∈ t0.inputs.map (inputDecision p t0.hash),
              s = InputStatus.nochange := by
            intro s hs
            rcases List.mem_map.mp hs with ⟨r, hr, hdr⟩
            rw [← hdr]
            by_cases hrf : r.rtype = RType.file
            · obtain ⟨v, hv, hle⟩ := hins r hr hrf
              rw [inputDecision, if_neg (by simp [hrf]), if_pos hrf, hplat,
                if_pos (hfiles t0 hmem0 r hr hrf), he]
              simp only [Option.some_bind, hv]
              exact if_neg (not_lt.mpr hle)
            · obtain ⟨cm, hcm, hsome⟩ := hcreator [] t0 rest rfl r hr hrf
              have hcmeq : cm = p.created := by
                simp only [creatorTrack, Option.some.injEq] at hcm
                exact hcm.symm
              subst hcmeq
              obtain ⟨aref, haref⟩ := Option.isSome_iff_exists.mp hsome
              have hkv := dictGet_mem p.created r.refStr aref haref
              obtain ⟨sv, hsval⟩ := Option.isSome_iff_exists.mp (hcov _ hkv)
              have hsskip : sv = TaskStatus.skip :=
                hstat _ (dictGet_mem _ _ _ hsval)
              subst hsskip
              rw [inputDecision, if_pos hrf, hplat,
                if_pos (hmaps t0 hmem0 r hr hrf), haref]
              simp [hsval]
          -- hence the task classifies SKIP
          have hsk0 : taskStatus p t0 = TaskStatus.skip := by
            unfold taskStatus
            rw [htree]
            simp only [hany, Bool.false_eq_true, if_false, he]
            rw [hplat, if_neg (by simp [hreg])]
            exact aggregateInputs_all_nochange _ hnoch
          have hev'' : ev' = Event.task { t0 with status := some TaskStatus.skip } := by
            rw [hev', hsk0]
          subst hev''
          intro t' ht'
          rcases (by simpa [taskEvents] using ht' :
              t' = { t0 with status := some TaskStatus.skip } ∨
                t' ∈ taskEvents out') with hteq | htrest
          · rw [hteq]
          · -- invariants for the advanced planner
            have hplatp' : p'.platform = p2 := hplat'.trans hplat
            have hstat2 : ∀ kv ∈ p'.statuses, kv.2 = TaskStatus.skip := by
              intro kv hkv
              rw [hstats', hsk0] at hkv
              rcases mem_dictSet p.statuses t0.ref TaskStatus.skip kv hkv with h1 | h1
              · rw [h1]
              · exact hstat kv h1
            have hcov2 : ∀ kv ∈ p'.created, (dictGet p'.statuses kv.2).isSome := by
              intro kv hkv
              have hfold := removeAll_mem t0.removes _ p'.created hra kv hkv
              rcases mem_foldl_dictSet t0.outputs t0.ref p.created kv hfold with h1 | h1
              · rw [hstats', h1]
                rw [dictGet_set_self]
                simp
              · rw [hstats']
                exact dictGet_set_isSome p.statuses t0.ref kv.2 (taskStatus p t0)
                  (hcov kv h1)
            have hhist2 : ∀ t ∈ taskEvents rest, histGood2 p2 p'.history t := by
              intro t ht
              have hmemt : t ∈ taskEvents (Event.task t0 :: rest) := by
                simp only [taskEvents, List.mem_cons]
                exact Or.inr ht
              have h1 : histGood2 p.platform p.history t := by
                rw [hplat]
                exact hhist t hmemt
              have h2 := histGood2_step p comp t0 t p' c' _ hstep
                (hwf t0 hmem0) (hwf t hmemt) h1
              rwa [hplat] at h2
            have hcre2 : ∀ pre t post, rest = pre ++ Event.task t :: post →
                ∀ r ∈ t.inputs, r.rtype ≠ RType.file →
                ∃ cm, creatorTrack p'.created pre = some cm ∧
                  (dictGet cm r.refStr).isSome := by
              intro pre t post heq r hr hrg
              obtain ⟨cm, hcm, hsome⟩ := hcreator (Event.task t0 :: pre) t post
                (by rw [heq]; rfl) r hr hrg
              refine ⟨cm, ?_, hsome⟩
              simp only [creatorTrack, hra] at hcm
              exact hcm
            exact ih p' c' out' pf' cf' hplatp' (hf'.trans hf) (ho'.trans ho)
              (by rw [hsk']; exact hsk) hstat2 hcov2
              (fun t ht => halw t (by
                simp only [taskEvents, List.mem_cons]
                exact Or.inr ht))
              (fun t ht => houts t (by
                simp only [taskEvents, List.mem_cons]
                exact Or.inr ht))
              (fun t ht => hfiles t (by
                simp only [taskEvents, List.mem_cons]
                exact Or.inr ht))
              (fun t ht => hmaps t (by
                simp only [taskEvents, List.mem_cons]
                exact Or.inr ht))
              (fun t ht => hwf t (by
                simp only [taskEvents, List.mem_cons]
                exact Or.inr ht))
              hhist2 hcre2 hrec2 t' htrest

/-- A task consuming a store entry that exists but has no producer in the
pipeline. -/
def c1CexTask : Task :=
  mkFixTask "t" (some "0")
    [Resource.map "vector/ext" RType.vector "ext" none none none] [] [] false

/-- The history after the first run over `[c1CexTask]`. -/
def c1H1 : History := [(fpOf "t", { inputs := [], region := "r0", message := "" })]

/-- C1 counterexample: a pipeline of one non-`always` task (no file
inputs, no outputs, unchanged region) whose single store input exists but
has no visible creator is classified RUN on the second run as well —
provenance UNKNOWN forces RUN every time, so the claim's conditions do
not suffice for SKIP. -/
theorem c1_counterexample :
    c1CexTask.always = false ∧ c1CexTask.outputs = [] ∧
    analyse [Event.task c1CexTask] cexPlatform [] false none none =
      some ([Event.task { c1CexTask with status := some TaskStatus.run }], c1H1) ∧
    analyse [Event.task c1CexTask] cexPlatform c1H1 false none none =
      some ([Event.task { c1CexTask with status := some TaskStatus.run }], c1H1) ∧
    TaskStatus.run ≠ TaskStatus.skip :=
  ⟨rfl, rfl, rfl, rfl, by decide⟩

/-- C1 amended: the idempotent re-run holds once every store-entry input
is creator-visible.  For a stream with no `always` tasks (inputs parsed
from their refs, as `load` yields), analysed with force unset, skip empty
or unset and only unset, where under the second run's platform every
declared output exists, every declared file input exists with no mtime
increase since the first run, every store-entry input exists and is
produced by an earlier task of the stream (and not removed before its
consumer is classified), and the region fingerprint is unchanged: if a
first `analyse` pass completes from any starting history, a second pass
over the same stream against the resulting history assigns SKIP to every
task. -/
theorem c1_amended (evs : List Event) (p1 p2 : Platform) (h0 h1 h2 : History)
    (sk : Option (List String)) (out1 out2 : List Event)
    (hsk : sk = none ∨ sk = some [])
    (halways : ∀ t ∈ taskEvents evs, t.always = false)
    (hwf : ∀ t ∈ taskEvents evs, wfTask t)
    (houts : ∀ t ∈ taskEvents evs, ∀ r ∈ t.outputs,
      (r.rtype ≠ RType.file → p2.mapExists r.rtype r.name = true) ∧
      (r.rtype = RType.file → p2.fileExists r.path = true))
    (hfiles : ∀ t ∈ taskEvents evs, ∀ r ∈ t.inputs, r.rtype = RType.file →
      p2.fileExists r.path = true)
    (hmtime : ∀ t ∈ taskEvents evs, ∀ r ∈ t.inputs, r.rtype = RType.file →
      p2.fileMtime r.path ≤ p1.fileMtime r.path)
    (hmaps : ∀ t ∈ taskEvents evs, ∀ r ∈ t.inputs, r.rtype ≠ RType.file →
      p2.mapExists r.rtype r.name = true)
    (hregion : p2.regionHash = p1.regionHash)
    (hcreator : ∀ pre t post, evs = pre ++ Event.task t :: post →
      ∀ r ∈ t.inputs, r.rtype ≠ RType.file →
      ∃ cm, creatorTrack [] pre = some cm ∧ (dictGet cm r.refStr).isSome)
    (hrun1 : analyse evs p1 h0 false sk none = some (out1, h1))
    (hrun2 : analyse evs p2 h1 false sk none = some (out2, h2)) :
    ∀ t ∈ taskEvents out2, t.status = some TaskStatus.skip := by
  have hrec := analyse_records evs p1 h0 false sk none out1 h1 hrun1 hwf
  have hist2 : ∀ t ∈ taskEvents evs, histGood2 p2 h1 t := by
    intro t ht
    obtain ⟨e, he, hreg, hins⟩ := hrec t ht
    exact ⟨e, he, by rw [hreg, hregion],
      fun r hr hrf => ⟨p1.fileMtime r.path, hins r hr hrf, hmtime t ht r hr hrf⟩⟩
  unfold analyse at hrun2
  cases hgo : analyseGo
      { platform := p2, history := h1, created := [], statuses := [],
        force := false, skip := sk, only := none } [] evs with
  | none => rw [hgo] at hrun2; exact Option.noConfusion hrun2
  | some r =>
    obtain ⟨out', pf, cf⟩ := r
    rw [hgo] at hrun2
    simp only [Option.some.injEq, Prod.mk.injEq] at hrun2
    obtain ⟨hout, -⟩ := hrun2
    subst hout
    exact analyseGo_all_skip p2 evs _ [] out' pf cf rfl rfl rfl hsk
      (by simp [dictGet]) (by simp [dictGet]) halways houts hfiles hmaps hwf
      hist2 hcreator hgo

/-- A chain-free single task with one file input for the C1 witness. -/
def c1WTask : Task :=
  mkFixTask "w" (some "0") [Resource.file "file/foo.txt" "foo.txt"] [] [] false

/-- The history after the first run over `[c1WTask]`. -/
def c1WH1 : History :=
  [(fpOf "w", { inputs := [("file/foo.txt", 0)], region := "r0", message := "" })]

/-- C1 amended, witnessed: a second run over the one-task stream yields
SKIP. -/
theorem c1_amended_witness :
    ({ c1WTask with status := some TaskStatus.skip } : Task).status =
      some TaskStatus.skip :=
  c1_amended [Event.task c1WTask] cexPlatform cexPlatform [] c1WH1 c1WH1 none
    [Event.task { c1WTask with status := some TaskStatus.run }]
    [Event.task { c1WTask with status := some TaskStatus.skip }]
    (Or.inl rfl)
    (by
      intro t ht
      simp only [taskEvents, List.mem_singleton] at ht
      subst ht
      rfl)
    (by
      intro t ht
      simp only [taskEvents, List.mem_singleton] at ht
      subst ht
      intro r hr
      simp only [c1WTask, mkFixTask, List.mem_singleton] at hr
      subst hr
      rfl)
    (by
      intro t ht r hr
      simp only [taskEvents, List.mem_singleton] at ht
      subst ht
      simp [c1WTask, mkFixTask] at hr)
    (by
      intro t ht r hr hrf
      rfl)
    (by
      intro t ht r hr hrf
      exact le_refl _)
    (by
      intro t ht r hr hrg
      simp only [taskEvents, List.mem_singleton] at ht
      subst ht
      simp only [c1WTask, mkFixTask, List.mem_singleton] at hr
      subst hr
      exact absurd rfl hrg)
    rfl
    (by
      intro pre t post heq r hr hrg
      cases pre with
      | nil =>
        simp only [List.nil_append, List.cons.injEq] at heq
        obtain ⟨hte, -⟩ := heq
        have ht : t = c1WTask := by
          injection hte.symm
        subst ht
        simp only [c1WTask, mkFixTask, List.mem_singleton] at hr
        subst hr
        exact absurd rfl hrg
      | cons e pre' => simp at heq)
    rfl rfl
    { c1WTask with status := some TaskStatus.skip }
    (by simp [taskEvents])

end Stitches
